import Mathlib

/-!
Verification of the DC power-flow orchestration engine of this repository
(dc_power_flow: utilities_load_flow.py, utilities_net_topology.py,
utilities_worst_case_sizing.py) against its natural-language specification.

The Python functions are shallowly embedded as executable Lean definitions:
pandas rows become structures, DataFrames become lists, NaN-able columns
become Option, float arithmetic is modelled over the rationals (over the
reals where the irrational factor 1/sqrt 3 is itself at stake), and the
external Newton-Raphson solver (pandapower runpp) is abstracted as an
oracle parameter wherever a claim does not depend on its numeric output.
-/

set_option maxHeartbeats 1000000

/-- Linear interpolation continuation: x0, y0 is the last point already
passed, the list holds the remaining curve points.  Mirrors numpy.interp:
values above the last sample clamp to the last y. -/
def interpGo (x0 y0 : ℚ) : List (ℚ × ℚ) → ℚ → ℚ
  | [], _ => y0
  | q :: tl, x => if x ≤ q.1 then y0 + (q.2 - y0) * (x - x0) / (q.1 - x0) else interpGo q.1 q.2 tl x

/-- numpy.interp over a sample list sorted by ascending x: values below the
first sample clamp to the first y, values above the last clamp to the last
y, and values in between are linearly interpolated. -/
def interp : List (ℚ × ℚ) → ℚ → ℚ
  | [], _ => 0
  | q :: tl, x => if x ≤ q.1 then q.2 else interpGo q.1 q.2 tl x

/-- Boolean lexicographic order on curve points, as used by the Python
builtin sorted on pairs. -/
def pairLeB (a b : ℚ × ℚ) : Bool :=
  if a.1 < b.1 then true else if a.1 = b.1 then decide (a.2 ≤ b.2) else false

/-- Insert one curve point into an already sorted list. -/
def insertPair (a : ℚ × ℚ) : List (ℚ × ℚ) → List (ℚ × ℚ)
  | [] => [a]
  | b :: t => if pairLeB a b then a :: b :: t else b :: insertPair a t

/-- Sorting of the droop curve by ascending voltage, mirroring the call
zip star sorted zip of utilities_load_flow.py (lexicographic on pairs). -/
def sortPairs : List (ℚ × ℚ) → List (ℚ × ℚ)
  | [] => []
  | a :: t => insertPair a (sortPairs t)

theorem mem_insertPair (a x : ℚ × ℚ) (l : List (ℚ × ℚ)) :
    x ∈ insertPair a l → x = a ∨ x ∈ l := by
  induction l with
  | nil => intro h; simp [insertPair] at h; exact Or.inl h
  | cons b t ih =>
    intro h
    simp only [insertPair] at h
    by_cases hc : pairLeB a b
    · simp [hc] at h
      rcases h with h | h | h
      · exact Or.inl h
      · exact Or.inr (by simp [h])
      · exact Or.inr (by simp [h])
    · simp [hc] at h
      rcases h with h | h
      · exact Or.inr (by simp [h])
      · rcases ih h with h1 | h1
        · exact Or.inl h1
        · exact Or.inr (by simp [h1])

theorem mem_sortPairs (x : ℚ × ℚ) (l : List (ℚ × ℚ)) :
    x ∈ sortPairs l → x ∈ l := by
  induction l with
  | nil => intro h; simp [sortPairs] at h
  | cons a t ih =>
    intro h
    simp only [sortPairs] at h
    rcases mem_insertPair a x (sortPairs t) h with h1 | h1
    · simp [h1]
    · exact List.mem_cons_of_mem a (ih h1)

theorem sortPairs_ne_nil (a : ℚ × ℚ) (l : List (ℚ × ℚ)) :
    sortPairs (a :: l) ≠ [] := by
  simp only [sortPairs]
  cases h : sortPairs l with
  | nil => simp [insertPair]
  | cons b t =>
    simp only [insertPair]
    by_cases hc : pairLeB a b <;> simp [hc]

theorem interpGo_const (c : ℚ) (tl : List (ℚ × ℚ)) (h : ∀ q ∈ tl, q.2 = c) :
    ∀ x0 x, interpGo x0 c tl x = c := by
  induction tl with
  | nil => intro x0 x; simp [interpGo]
  | cons q t ih =>
    intro x0 x
    have hq : q.2 = c := h q (by simp)
    simp only [interpGo]
    by_cases hx : x ≤ q.1
    · simp [hx, hq]
    · simp only [hx, if_false]
      rw [hq]
      exact ih (fun p hp => h p (by simp [hp])) q.1 x

/-- A curve whose second components are all equal interpolates to that
constant at every abscissa. -/
theorem interp_const (c : ℚ) (l : List (ℚ × ℚ)) (hne : l ≠ []) (h : ∀ q ∈ l, q.2 = c) (x : ℚ) :
    interp l x = c := by
  cases l with
  | nil => exact absurd rfl hne
  | cons q t =>
    have hq : q.2 = c := h q (by simp)
    simp only [interp]
    by_cases hx : x ≤ q.1
    · simp [hx, hq]
    · simp only [hx, if_false]
      rw [hq]
      exact interpGo_const c t (fun p hp => h p (by simp [hp])) q.1 x

/- ===================================================================
C8: update_dc_results (utilities_load_flow.py lines 1239-1275).
The correction factor of the source is 1/sqrt(3), an irrational number, so
the result values are modelled in the subring of the real numbers of shape
a + b*sqrt(3) with rational a, b, represented exactly and computably by the
pair (a, b).  sqrt3 below is the square root of 3 of that subring (its
square is 3) and the correction factor is literally its multiplicative
inverse, as in the source.
=================================================================== -/

/-- An element a + b*sqrt(3) of the real subring generated by sqrt(3),
represented exactly by the rational pair (a, b). -/
structure QRt3 where
  ra : ℚ
  rb : ℚ
deriving DecidableEq

/-- Multiplication in the subring: (a+b*s)(c+d*s) with s^2 = 3. -/
def qmul (x y : QRt3) : QRt3 :=
  ⟨x.ra * y.ra + 3 * x.rb * y.rb, x.ra * y.rb + x.rb * y.ra⟩

/-- Multiplicative inverse in the subring (sends 0 to 0). -/
def qinv (x : QRt3) : QRt3 :=
  ⟨x.ra / (x.ra ^ 2 - 3 * x.rb ^ 2), -x.rb / (x.ra ^ 2 - 3 * x.rb ^ 2)⟩

/-- The square root of 3. -/
def sqrt3 : QRt3 := ⟨0, 1⟩

/-- Embedding of the rationals into the subring. -/
def qofRat (q : ℚ) : QRt3 := ⟨q, 0⟩

/-- sqrt3 squares to 3, and the correction factor qinv sqrt3 is exactly its
inverse: the representation is faithful. -/
theorem sqrt3_spec :
    qmul sqrt3 sqrt3 = qofRat 3 ∧ qmul (qinv sqrt3) sqrt3 = qofRat 1 := by
  constructor <;> · simp only [qmul, qinv, sqrt3, qofRat]; norm_num

theorem qmul_inv_sqrt3_sq : qmul (qofRat 2) (qmul (qinv sqrt3) (qinv sqrt3)) = qofRat (2 / 3) := by
  simp only [qmul, qinv, sqrt3, qofRat]
  norm_num

/-- Row of res_bus: voltage magnitude and the two power columns. -/
structure BusRes where
  vm_pu : QRt3
  p_mw : QRt3
  q_mvar : QRt3
deriving DecidableEq

/-- Row of res_line: the four terminal power columns, the two loss columns,
and two untouched columns (current and loading). -/
structure LineRes where
  p_from_mw : QRt3
  q_from_mvar : QRt3
  p_to_mw : QRt3
  q_to_mvar : QRt3
  pl_mw : QRt3
  ql_mvar : QRt3
  i_ka : QRt3
  loading_percent : QRt3
deriving DecidableEq

/-- Row of res_ext_grid / res_load / res_sgen / res_storage. -/
structure PQRes where
  p_mw : QRt3
  q_mvar : QRt3
deriving DecidableEq

/-- Row of res_converter: power, loading (untouched), loss. -/
structure ConvRes where
  p_mw : QRt3
  loading_percent : QRt3
  pl_mw : QRt3
deriving DecidableEq

/-- The result tables of a pandapower network that update_dc_results reads
or writes. -/
structure NetResults where
  res_bus : List BusRes
  res_line : List LineRes
  res_ext_grid : List PQRes
  res_load : List PQRes
  res_sgen : List PQRes
  res_storage : List PQRes
  res_converter : List ConvRes

/-- Embedding of update_dc_results: multiply the power columns of each
non-empty result table by the correction factor 1/sqrt(3) and the line and
converter loss columns by 2 times the square of the factor. -/
def update_dc_results (net : NetResults) : NetResults :=
  let c : QRt3 := qinv sqrt3
  let cl : QRt3 := qmul (qofRat 2) (qmul c c)
  ⟨if net.res_bus.isEmpty then net.res_bus
     else net.res_bus.map (fun r => ⟨r.vm_pu, qmul r.p_mw c, qmul r.q_mvar c⟩),
   if net.res_line.isEmpty then net.res_line
     else net.res_line.map (fun r =>
       ⟨qmul r.p_from_mw c, qmul r.q_from_mvar c, qmul r.p_to_mw c, qmul r.q_to_mvar c,
        qmul r.pl_mw cl, qmul r.ql_mvar cl, r.i_ka, r.loading_percent⟩),
   if net.res_ext_grid.isEmpty then net.res_ext_grid
     else net.res_ext_grid.map (fun r => ⟨qmul r.p_mw c, qmul r.q_mvar c⟩),
   if net.res_load.isEmpty then net.res_load
     else net.res_load.map (fun r => ⟨qmul r.p_mw c, qmul r.q_mvar c⟩),
   if net.res_sgen.isEmpty then net.res_sgen
     else net.res_sgen.map (fun r => ⟨qmul r.p_mw c, qmul r.q_mvar c⟩),
   if net.res_storage.isEmpty then net.res_storage
     else net.res_storage.map (fun r => ⟨qmul r.p_mw c, qmul r.q_mvar c⟩),
   if net.res_converter.isEmpty then net.res_converter
     else net.res_converter.map (fun r => ⟨qmul r.p_mw c, r.loading_percent, qmul r.pl_mw cl⟩)⟩

/-- The emptiness guard of update_dc_results is redundant: mapping over an
empty table is the identity. -/
theorem ite_isEmpty_map {α : Type} (l : List α) (f : α → α) :
    (if l.isEmpty then l else l.map f) = l.map f := by
  by_cases h : l.isEmpty
  · simp [List.isEmpty_iff.mp h]
  · simp [h]

/-- C8: update_dc_results multiplies every power result (bus, line from/to,
external grid, load, sgen, storage, converter) by exactly 1/sqrt(3) (the
inverse of sqrt3, see sqrt3_spec), multiplies every line and converter loss
column (pl_mw, ql_mvar) by exactly 2/3 (the exact value of 2 times the
square of the factor), and leaves every other result column (bus voltage,
line current, loadings) unchanged. -/
theorem C8_dc_result_correction (net : NetResults) :
    (update_dc_results net).res_bus
        = net.res_bus.map (fun r =>
            ⟨r.vm_pu, qmul r.p_mw (qinv sqrt3), qmul r.q_mvar (qinv sqrt3)⟩) ∧
    (update_dc_results net).res_line
        = net.res_line.map (fun r =>
            ⟨qmul r.p_from_mw (qinv sqrt3), qmul r.q_from_mvar (qinv sqrt3),
             qmul r.p_to_mw (qinv sqrt3), qmul r.q_to_mvar (qinv sqrt3),
             qmul r.pl_mw (qofRat (2 / 3)), qmul r.ql_mvar (qofRat (2 / 3)),
             r.i_ka, r.loading_percent⟩) ∧
    (update_dc_results net).res_ext_grid
        = net.res_ext_grid.map (fun r => ⟨qmul r.p_mw (qinv sqrt3), qmul r.q_mvar (qinv sqrt3)⟩) ∧
    (update_dc_results net).res_load
        = net.res_load.map (fun r => ⟨qmul r.p_mw (qinv sqrt3), qmul r.q_mvar (qinv sqrt3)⟩) ∧
    (update_dc_results net).res_sgen
        = net.res_sgen.map (fun r => ⟨qmul r.p_mw (qinv sqrt3), qmul r.q_mvar (qinv sqrt3)⟩) ∧
    (update_dc_results net).res_storage
        = net.res_storage.map (fun r => ⟨qmul r.p_mw (qinv sqrt3), qmul r.q_mvar (qinv sqrt3)⟩) ∧
    (update_dc_results net).res_converter
        = net.res_converter.map (fun r =>
            ⟨qmul r.p_mw (qinv sqrt3), r.loading_percent, qmul r.pl_mw (qofRat (2 / 3))⟩) := by
  refine ⟨?_, ?_, ?_, ?_, ?_, ?_, ?_⟩ <;>
    · simp only [update_dc_results]
      rw [ite_isEmpty_map]
      try
        refine List.map_congr_left ?_
        intro r _
        rw [qmul_inv_sqrt3_sq]

/- ===================================================================
C6: interpolate_bess_p_droop (utilities_load_flow.py lines 1202-1236).
=================================================================== -/

/-- Embedding of interpolate_bess_p_droop.  The asset row fields that the
source reads are passed explicitly: whether the storage name contains EV,
the power profile with the current timestep, nominal power, state of
charge, energy capacity; duration is the timestep length in hours and
v_asset the governing bus voltage.  Returns the pair of the delivered
power and the final state of charge. -/
def interpolate_bess_p_droop (droop_curve : List (ℚ × ℚ)) (nameHasEV : Bool)
    (power_profile : List ℚ) (t : ℕ) (p_nom_mw : ℚ) (soc_percent max_e_mwh : ℚ)
    (duration v_asset : ℚ) : ℚ × ℚ :=
  let sorted := sortPairs droop_curve
  let p_setpoint := if nameHasEV then power_profile.getD t 0 * p_nom_mw else p_nom_mw
  let p_droop := interp sorted v_asset * p_setpoint
  let soc_init := soc_percent
  let max_energy := max_e_mwh
  let soc_lower_limit : ℚ := 10
  let soc_higher_limit : ℚ := 95
  let soc_change := p_droop * duration / max_energy * 100
  let soc_final := soc_change + soc_init
  if soc_final ≤ soc_lower_limit then
    let soc_max_var := soc_lower_limit - soc_init
    (soc_max_var / (100 * duration) * max_energy, soc_init + soc_max_var)
  else if soc_final > soc_higher_limit then
    let soc_max_var := soc_higher_limit - soc_init
    (soc_max_var / (100 * duration) * max_energy, soc_init + soc_max_var)
  else
    (p_droop, soc_final)

/-- The unclamped droop power of a battery storage asset, before the state
of charge limits are applied. -/
def bess_unclamped_power (droop_curve : List (ℚ × ℚ)) (nameHasEV : Bool)
    (power_profile : List ℚ) (t : ℕ) (p_nom_mw v_asset : ℚ) : ℚ :=
  interp (sortPairs droop_curve) v_asset *
    (if nameHasEV then power_profile.getD t 0 * p_nom_mw else p_nom_mw)

/-- C6: for a battery storage asset, when the projected state of charge
soc_init + (P * dt / E) * 100 would leave the band from 10 to 95 percent,
interpolate_bess_p_droop returns exactly the violated bound as the new SOC
together with a power that lands the SOC exactly on that bound; otherwise
the unclamped droop power and the projected SOC are returned unchanged. -/
theorem C6_bess_soc_clamp (droop_curve : List (ℚ × ℚ)) (nameHasEV : Bool)
    (power_profile : List ℚ) (t : ℕ) (p_nom_mw soc_percent max_e_mwh duration v_asset : ℚ)
    (hE : 0 < max_e_mwh) (hd : 0 < duration) :
    ((bess_unclamped_power droop_curve nameHasEV power_profile t p_nom_mw v_asset
          * duration / max_e_mwh * 100 + soc_percent < 10 →
        (interpolate_bess_p_droop droop_curve nameHasEV power_profile t p_nom_mw
            soc_percent max_e_mwh duration v_asset).2 = 10 ∧
        soc_percent + (interpolate_bess_p_droop droop_curve nameHasEV power_profile t p_nom_mw
            soc_percent max_e_mwh duration v_asset).1 * duration / max_e_mwh * 100 = 10)) ∧
    ((bess_unclamped_power droop_curve nameHasEV power_profile t p_nom_mw v_asset
          * duration / max_e_mwh * 100 + soc_percent > 95 →
        (interpolate_bess_p_droop droop_curve nameHasEV power_profile t p_nom_mw
            soc_percent max_e_mwh duration v_asset).2 = 95 ∧
        soc_percent + (interpolate_bess_p_droop droop_curve nameHasEV power_profile t p_nom_mw
            soc_percent max_e_mwh duration v_asset).1 * duration / max_e_mwh * 100 = 95)) ∧
    (10 ≤ bess_unclamped_power droop_curve nameHasEV power_profile t p_nom_mw v_asset
          * duration / max_e_mwh * 100 + soc_percent →
      bess_unclamped_power droop_curve nameHasEV power_profile t p_nom_mw v_asset
          * duration / max_e_mwh * 100 + soc_percent ≤ 95 →
        interpolate_bess_p_droop droop_curve nameHasEV power_profile t p_nom_mw
            soc_percent max_e_mwh duration v_asset
          = (bess_unclamped_power droop_curve nameHasEV power_profile t p_nom_mw v_asset,
             bess_unclamped_power droop_curve nameHasEV power_profile t p_nom_mw v_asset
               * duration / max_e_mwh * 100 + soc_percent)) := by
  have hE' : max_e_mwh ≠ 0 := ne_of_gt hE
  have hd' : duration ≠ 0 := ne_of_gt hd
  set p := bess_unclamped_power droop_curve nameHasEV power_profile t p_nom_mw v_asset with hp
  have hunfold : interpolate_bess_p_droop droop_curve nameHasEV power_profile t p_nom_mw
      soc_percent max_e_mwh duration v_asset
      = if p * duration / max_e_mwh * 100 + soc_percent ≤ 10 then
          ((10 - soc_percent) / (100 * duration) * max_e_mwh, soc_percent + (10 - soc_percent))
        else if p * duration / max_e_mwh * 100 + soc_percent > 95 then
          ((95 - soc_percent) / (100 * duration) * max_e_mwh, soc_percent + (95 - soc_percent))
        else (p, p * duration / max_e_mwh * 100 + soc_percent) := by
    simp only [interpolate_bess_p_droop, bess_unclamped_power, hp]
  refine ⟨?_, ?_, ?_⟩
  · intro h
    rw [hunfold, if_pos (le_of_lt h)]
    constructor
    · ring
    · field_simp
      ring
  · intro h
    have h10 : ¬ (p * duration / max_e_mwh * 100 + soc_percent ≤ 10) := by linarith
    rw [hunfold, if_neg h10, if_pos h]
    constructor
    · ring
    · field_simp
      ring
  · intro h1 h2
    by_cases h10 : p * duration / max_e_mwh * 100 + soc_percent ≤ 10
    · have he : p * duration / max_e_mwh * 100 + soc_percent = 10 := le_antisymm h10 h1
      rw [hunfold, if_pos h10, Prod.ext_iff]
      constructor
      · have hch : p * duration / max_e_mwh * 100 = 10 - soc_percent := by linarith
        simp only []
        rw [← hch]
        field_simp
        ring
      · simp only []
        linarith
    · have h95 : ¬ (p * duration / max_e_mwh * 100 + soc_percent > 95) := by linarith
      rw [hunfold, if_neg h10, if_neg h95]

/-- Witness for C6 at a concrete input: nominal power 1 MW, flat droop
curve, capacity 1 MWh, timestep 1 h, initial SOC 50 percent: projected SOC
150 leaves the band, the returned SOC is exactly 95 and the returned power
0.45 MW lands it there. -/
theorem C6_bess_soc_clamp_witness :
    (0 : ℚ) < 1 ∧
    (interpolate_bess_p_droop [(1, 1), (2, 1)] false [] 0 1 50 1 1 1).2 = 95 ∧
    (50 : ℚ) + (interpolate_bess_p_droop [(1, 1), (2, 1)] false [] 0 1 50 1 1 1).1 * 1 / 1 * 100 = 95 := by
  have h := (C6_bess_soc_clamp [(1, 1), (2, 1)] false [] 0 1 50 1 1 1 (by norm_num) (by norm_num)).2.1
  refine ⟨by norm_num, ?_⟩
  have hgt : bess_unclamped_power [(1, 1), (2, 1)] false [] 0 1 1 * 1 / 1 * 100 + 50 > 95 := by
    norm_num [bess_unclamped_power, sortPairs, insertPair, pairLeB, interp, interpGo]
  exact h hgt

/- ===================================================================
C4: calculate_converter_power (lines 68-87), update_upstream_network
(lines 132-155) and update_upstream_networks_with_results (lines 519-544)
of utilities_load_flow.py.  A converter row is reduced to the fields read
by these functions: the efficiency curve (power in kW versus efficiency
fraction) and the standby loss.  The upstream load table is a list of
rows; add_load_to_upstream (lines 158-178) creates or updates the row
tagged with the downstream subnetwork id.
=================================================================== -/

/-- The efficiency curve and standby loss of a converter row. -/
structure ConverterData where
  efficiency : List (ℚ × ℚ)
  stand_by_loss : ℚ

/-- Embedding of interpolate_efficiency: interpolate the efficiency curve
at the absolute power, with the curve abscissa converted from kW to MW. -/
def interpolate_efficiency (converter : ConverterData) (power : ℚ) : ℚ :=
  interp (converter.efficiency.map (fun q => (q.1 / 1000, q.2))) |power|

/-- Embedding of calculate_converter_power: scale by the efficiency
according to the flow direction, add the standby loss, and record the
absolute difference as the loss.  Returns (adjusted power, efficiency,
power loss). -/
def calculate_converter_power (power : ℚ) (converter : ConverterData) : ℚ × ℚ × ℚ :=
  let efficiency := interpolate_efficiency converter power
  let adjusted_power :=
    (if power < 0 then power * efficiency else power / efficiency) + converter.stand_by_loss
  let power_loss := |power - adjusted_power|
  (adjusted_power, efficiency, power_loss)

/-- A load row of an upstream subnetwork: bus, power, and the tag holding
the downstream subnetwork id of the temporary converter-emulation load
(none for ordinary loads). -/
structure UpLoad where
  bus : ℕ
  p_mw : ℚ
  netTag : Option ℕ
deriving DecidableEq

/-- Embedding of add_load_to_upstream: if a load tagged with the
downstream id exists, overwrite its power, else append a new tagged load
at the connection bus. -/
def add_load_to_upstream (loads : List UpLoad) (bus : ℕ) (adjusted_power : ℚ)
    (network_id : ℕ) : List UpLoad :=
  if loads.any (fun l => l.netTag = some network_id) then
    loads.map (fun l => if l.netTag = some network_id then ⟨l.bus, adjusted_power, l.netTag⟩ else l)
  else
    loads ++ [⟨bus, adjusted_power, some network_id⟩]

/-- The per-link body of update_upstream_network (normal orchestration
pass): read the boundary power, run calculate_converter_power, install the
equivalent load upstream.  Returns the updated upstream load table, the
equivalent power and the recorded converter loss. -/
def update_upstream_network_link (loads : List UpLoad) (bus : ℕ) (network_id : ℕ)
    (power : ℚ) (converter : ConverterData) : List UpLoad × ℚ × ℚ :=
  let r := calculate_converter_power power converter
  (add_load_to_upstream loads bus r.1 network_id, r.1, r.2.2)

/-- The per-link body of update_upstream_networks_with_results (cable
sizing pass): the efficiency transform is applied without the standby
loss, and the recorded loss is the signed difference power minus
equivalent power. -/
def update_upstream_networks_with_results_link (loads : List UpLoad) (bus : ℕ)
    (network_id : ℕ) (power : ℚ) (converter : ConverterData) : List UpLoad × ℚ × ℚ :=
  let efficiency := interpolate_efficiency converter power
  let adjusted_power := if power < 0 then power * efficiency else power / efficiency
  (add_load_to_upstream loads bus adjusted_power network_id, adjusted_power,
   power - adjusted_power)

/-- C4 counterexample: with efficiency one half, boundary power minus one
and standby loss one tenth, the sizing pass installs an equivalent power
of minus one half, which differs from the efficiency transform plus
standby loss (minus two fifths), and records the signed loss minus one
half instead of the absolute difference one half: the claim fails for the
cable-sizing pass. -/
theorem C4_counterexample :
    (update_upstream_networks_with_results_link [] 0 1 (-1)
        ⟨[(0, 1/2), (2000, 1/2)], 1/10⟩).2.1
      ≠ (if (-1 : ℚ) < 0
           then (-1) * interpolate_efficiency ⟨[(0, 1/2), (2000, 1/2)], 1/10⟩ (-1)
           else (-1) / interpolate_efficiency ⟨[(0, 1/2), (2000, 1/2)], 1/10⟩ (-1))
          + (1/10 : ℚ) ∧
    (update_upstream_networks_with_results_link [] 0 1 (-1)
        ⟨[(0, 1/2), (2000, 1/2)], 1/10⟩).2.2
      ≠ |(-1 : ℚ) - (update_upstream_networks_with_results_link [] 0 1 (-1)
          ⟨[(0, 1/2), (2000, 1/2)], 1/10⟩).2.1| := by
  have heff : interpolate_efficiency ⟨[(0, 1/2), (2000, 1/2)], 1/10⟩ (-1) = 1/2 := by
    norm_num [interpolate_efficiency, interp, interpGo]
  constructor
  · simp only [update_upstream_networks_with_results_link, heff]
    norm_num
  · simp only [update_upstream_networks_with_results_link, heff]
    norm_num [abs_of_nonneg]

/-- C4 amended: in the normal orchestration pass the equivalent load
installed upstream equals the boundary power transformed by the
interpolated efficiency (multiplied when flowing toward the subnetwork,
divided when flowing away) plus the standby loss, and the recorded loss is
the absolute difference; in the cable-sizing pass the standby loss is not
added and the recorded loss is the signed difference boundary power minus
equivalent power.  In both passes the load tagged with the downstream id
carries exactly the equivalent power after the update, at the connection
bus when newly created. -/
theorem C4_converter_equivalent_load (loads : List UpLoad) (bus network_id : ℕ)
    (power : ℚ) (converter : ConverterData) :
    (update_upstream_network_link loads bus network_id power converter).2.1
        = (if power < 0 then power * interpolate_efficiency converter power
           else power / interpolate_efficiency converter power) + converter.stand_by_loss ∧
    (update_upstream_network_link loads bus network_id power converter).2.2
        = |power - (update_upstream_network_link loads bus network_id power converter).2.1| ∧
    (∀ l ∈ (update_upstream_network_link loads bus network_id power converter).1,
        l.netTag = some network_id →
          l.p_mw = (update_upstream_network_link loads bus network_id power converter).2.1) ∧
    (∃ l ∈ (update_upstream_network_link loads bus network_id power converter).1,
        l.netTag = some network_id) ∧
    (update_upstream_networks_with_results_link loads bus network_id power converter).2.1
        = (if power < 0 then power * interpolate_efficiency converter power
           else power / interpolate_efficiency converter power) ∧
    (update_upstream_networks_with_results_link loads bus network_id power converter).2.2
        = power - (update_upstream_networks_with_results_link loads bus network_id
            power converter).2.1 ∧
    (∀ l ∈ (update_upstream_networks_with_results_link loads bus network_id power converter).1,
        l.netTag = some network_id →
          l.p_mw = (update_upstream_networks_with_results_link loads bus network_id
            power converter).2.1) := by
  have hmem : ∀ (p : ℚ), ∀ l ∈ add_load_to_upstream loads bus p network_id,
      l.netTag = some network_id → l.p_mw = p := by
    intro p l hl htag
    simp only [add_load_to_upstream] at hl
    split at hl
    next hany =>
      rw [List.mem_map] at hl
      obtain ⟨l0, _, hl0⟩ := hl
      by_cases ht0 : l0.netTag = some network_id
      · simp only [ht0, if_true] at hl0
        rw [← hl0]
      · simp only [ht0, if_false] at hl0
        rw [← hl0] at htag
        exact absurd htag ht0
    next hany =>
      rw [List.mem_append] at hl
      rcases hl with hl | hl
      · exfalso
        rw [List.any_eq_true] at hany
        push_neg at hany
        have hthis := hany l hl
        simp [htag] at hthis
      · simp only [List.mem_singleton] at hl
        simp [hl]
  have hex : ∀ (p : ℚ), ∃ l ∈ add_load_to_upstream loads bus p network_id,
      l.netTag = some network_id := by
    intro p
    simp only [add_load_to_upstream]
    split
    next hany =>
      rw [List.any_eq_true] at hany
      obtain ⟨l0, hl0, ht0⟩ := hany
      rw [decide_eq_true_eq] at ht0
      refine ⟨⟨l0.bus, p, l0.netTag⟩, ?_, by simp [ht0]⟩
      rw [List.mem_map]
      refine ⟨l0, hl0, ?_⟩
      simp [ht0]
    next hany =>
      exact ⟨⟨bus, p, some network_id⟩, by simp, rfl⟩
  refine ⟨rfl, ?_, ?_, ?_, rfl, rfl, ?_⟩
  · simp only [update_upstream_network_link, calculate_converter_power]
  · exact hmem _
  · exact hex _
  · exact hmem _

/-- Witness for C4 at a concrete input: boundary power 1 MW, constant
efficiency one half, standby loss one tenth: the normal pass installs
2 + 1/10 MW upstream. -/
theorem C4_converter_equivalent_load_witness :
    (update_upstream_network_link [] 0 1 1 ⟨[(0, 1/2), (2000, 1/2)], 1/10⟩).2.1
      = (if (1 : ℚ) < 0
           then 1 * interpolate_efficiency ⟨[(0, 1/2), (2000, 1/2)], 1/10⟩ 1
           else 1 / interpolate_efficiency ⟨[(0, 1/2), (2000, 1/2)], 1/10⟩ 1) + 1/10 :=
  (C4_converter_equivalent_load [] 0 1 1 ⟨[(0, 1/2), (2000, 1/2)], 1/10⟩).1

/- ===================================================================
C7: merge_network_components and perform_comprehensive_sizing
(utilities_worst_case_sizing.py lines 189-258).  A sized network is
reduced to the two rating columns the merge reads: the converter nominal
powers P and the line current capacities max_i_ka, aligned by index.
=================================================================== -/

/-- The rating columns of a sized network. -/
structure SizedNet where
  convP : List ℚ
  lineMaxI : List ℚ

/-- Embedding of merge_network_components: rows of the comparison network
replace rows of the base network exactly where the comparison rating is
strictly larger. -/
def merge_network_components (base comparison : SizedNet) : SizedNet :=
  ⟨base.convP.zipWith (fun b c => if c > b then c else b) comparison.convP,
   base.lineMaxI.zipWith (fun b c => if c > b then c else b) comparison.lineMaxI⟩

/-- Embedding of perform_comprehensive_sizing: merge scenario 2 with the
storage scenario when the latter ran, then merge with scenario 3. -/
def perform_comprehensive_sizing (storage_network : Option SizedNet)
    (scenario2_network scenario3_network : SizedNet) : SizedNet :=
  let combined_network := match storage_network with
    | some s => merge_network_components scenario2_network s
    | none => scenario2_network
  merge_network_components combined_network scenario3_network

theorem getD_zipWith_max (a b : List ℚ) (i : ℕ) (ha : i < a.length) (hb : i < b.length) :
    (a.zipWith (fun x y => if y > x then y else x) b).getD i 0
      = max (a.getD i 0) (b.getD i 0) := by
  induction a generalizing b i with
  | nil => simp at ha
  | cons x at' ih =>
    cases b with
    | nil => simp at hb
    | cons y bt =>
      cases i with
      | zero =>
        simp only [List.zipWith, List.getD]
        rcases lt_or_le x y with h | h
        · simp [h, max_eq_right (le_of_lt h)]
        · have hny : ¬ (y > x) := not_lt_of_le h
          simp [hny, max_eq_left h]
      | succ n =>
        simp only [List.zipWith, List.getD] at *
        exact ih bt n (Nat.lt_of_succ_lt_succ ha) (Nat.lt_of_succ_lt_succ hb)

theorem zipWith_max_length (a b : List ℚ) :
    (a.zipWith (fun x y => if y > x then y else x) b).length = min a.length b.length := by
  simp [List.length_zipWith]

/-- C7: when all three sizing scenarios ran, every converter rating and
every line capacity of the comprehensively sized network is the
element-wise maximum of that rating over the storage scenario, scenario 2
and scenario 3 (and the maximum of the latter two when storage sizing was
skipped); in particular no rating is smaller than in any scenario. -/
theorem C7_scenario_merge_max (s1 s2 s3 : SizedNet)
    (hc1 : s1.convP.length = s2.convP.length) (hc3 : s3.convP.length = s2.convP.length)
    (hl1 : s1.lineMaxI.length = s2.lineMaxI.length)
    (hl3 : s3.lineMaxI.length = s2.lineMaxI.length) :
    (∀ i < s2.convP.length,
        (perform_comprehensive_sizing (some s1) s2 s3).convP.getD i 0
          = max (max (s2.convP.getD i 0) (s1.convP.getD i 0)) (s3.convP.getD i 0) ∧
        (perform_comprehensive_sizing none s2 s3).convP.getD i 0
          = max (s2.convP.getD i 0) (s3.convP.getD i 0) ∧
        s1.convP.getD i 0 ≤ (perform_comprehensive_sizing (some s1) s2 s3).convP.getD i 0 ∧
        s2.convP.getD i 0 ≤ (perform_comprehensive_sizing (some s1) s2 s3).convP.getD i 0 ∧
        s3.convP.getD i 0 ≤ (perform_comprehensive_sizing (some s1) s2 s3).convP.getD i 0) ∧
    (∀ i < s2.lineMaxI.length,
        (perform_comprehensive_sizing (some s1) s2 s3).lineMaxI.getD i 0
          = max (max (s2.lineMaxI.getD i 0) (s1.lineMaxI.getD i 0)) (s3.lineMaxI.getD i 0) ∧
        (perform_comprehensive_sizing none s2 s3).lineMaxI.getD i 0
          = max (s2.lineMaxI.getD i 0) (s3.lineMaxI.getD i 0)) := by
  constructor
  · intro i hi
    have h1 : (merge_network_components s2 s1).convP.getD i 0
        = max (s2.convP.getD i 0) (s1.convP.getD i 0) :=
      getD_zipWith_max s2.convP s1.convP i hi (by omega)
    have hlen : i < (merge_network_components s2 s1).convP.length := by
      simp only [merge_network_components, zipWith_max_length]
      omega
    have h2 : (perform_comprehensive_sizing (some s1) s2 s3).convP.getD i 0
        = max ((merge_network_components s2 s1).convP.getD i 0) (s3.convP.getD i 0) :=
      getD_zipWith_max _ s3.convP i hlen (by omega)
    have h3 : (perform_comprehensive_sizing none s2 s3).convP.getD i 0
        = max (s2.convP.getD i 0) (s3.convP.getD i 0) :=
      getD_zipWith_max s2.convP s3.convP i hi (by omega)
    rw [h2, h1]
    refine ⟨rfl, h3, ?_, ?_, ?_⟩
    · exact le_max_of_le_left (le_max_right _ _)
    · exact le_max_of_le_left (le_max_left _ _)
    · exact le_max_right _ _
  · intro i hi
    have h1 : (merge_network_components s2 s1).lineMaxI.getD i 0
        = max (s2.lineMaxI.getD i 0) (s1.lineMaxI.getD i 0) :=
      getD_zipWith_max s2.lineMaxI s1.lineMaxI i hi (by omega)
    have hlen : i < (merge_network_components s2 s1).lineMaxI.length := by
      simp only [merge_network_components, zipWith_max_length]
      omega
    have h2 : (perform_comprehensive_sizing (some s1) s2 s3).lineMaxI.getD i 0
        = max ((merge_network_components s2 s1).lineMaxI.getD i 0) (s3.lineMaxI.getD i 0) :=
      getD_zipWith_max _ s3.lineMaxI i hlen (by omega)
    have h3 : (perform_comprehensive_sizing none s2 s3).lineMaxI.getD i 0
        = max (s2.lineMaxI.getD i 0) (s3.lineMaxI.getD i 0) :=
      getD_zipWith_max s2.lineMaxI s3.lineMaxI i hi (by omega)
    rw [h2, h1]
    exact ⟨rfl, h3⟩

/-- Witness for C7 at the concrete input of the spec: two scenarios sizing
the same converter to 50 kW (0.05 MW) and 80 kW (0.08 MW); the merged
network keeps 0.08 MW. -/
theorem C7_scenario_merge_max_witness :
    (perform_comprehensive_sizing (some ⟨[1/20], [1]⟩) ⟨[2/25], [1]⟩ ⟨[1/20], [1]⟩).convP.getD 0 0
      = max (max (2/25) (1/20)) (1/20) :=
  ((C7_scenario_merge_max ⟨[1/20], [1]⟩ ⟨[2/25], [1]⟩ ⟨[1/20], [1]⟩ rfl rfl rfl rfl).1
    0 (by norm_num)).1

/- ===================================================================
C3: the PDU droop fixed point loop of perform_dc_load_flow
(utilities_load_flow.py lines 251-304).  One iteration of the loop body
(solving every subnetwork and measuring the PDU voltage differences) is
abstracted as an oracle from the iteration counter to the produced error
and downstream voltage vector; the loop state and stopping logic are
embedded verbatim.
=================================================================== -/

/-- State of the droop fixed point loop: current error (sum over PDU
connections of the absolute voltage difference between the two sides), the
PDU downstream voltage vector of the previous and current iteration, and
the iteration counter. -/
structure DroopState where
  err : ℚ
  prev_diff_volt : List ℚ
  diff_volt : List ℚ
  iter : ℕ
deriving DecidableEq

/-- Sum of absolute element-wise differences of two vectors, as numpy
computes sum(abs(a - b)) for equal-length arrays. -/
def sumAbsDiff (a b : List ℚ) : ℚ :=
  ((a.zipWith (fun x y => |x - y|) b).foldl (fun s x => s + x) 0)

/-- The while condition of the droop loop: err > 1e-8 and the voltage
vector moved by more than 1e-8, and fewer than 100 iterations done. -/
def droopContinue (s : DroopState) : Bool :=
  (decide (s.err > 1 / 100000000) && decide (sumAbsDiff s.prev_diff_volt s.diff_volt > 1 / 100000000))
    && decide (s.iter < 100)

/-- One iteration of the loop body: the oracle yields the error and the
downstream voltage vector measured after re-solving all subnetworks. -/
def droopStep (oracle : ℕ → ℚ × List ℚ) (s : DroopState) : DroopState :=
  ⟨(oracle s.iter).1, s.diff_volt, (oracle s.iter).2, s.iter + 1⟩

/-- The droop loop with explicit fuel; the iteration guard i < 100 makes
fuel 100 sufficient from a zero counter. -/
def droopLoopGo (oracle : ℕ → ℚ × List ℚ) : ℕ → DroopState → DroopState
  | 0, s => s
  | fuel + 1, s => if droopContinue s then droopLoopGo oracle fuel (droopStep oracle s) else s

/-- The droop fixed point loop of perform_dc_load_flow with its initial
state: err 1, previous vector all zeros, current vector all tens, counter
zero, over the number of PDU converters. -/
def perform_dc_load_flow_droop_loop (oracle : ℕ → ℚ × List ℚ) (nPDU : ℕ) : DroopState :=
  droopLoopGo oracle 100 ⟨1, List.replicate nPDU 0, List.replicate nPDU 10, 0⟩

theorem droopLoopGo_iter_le (oracle : ℕ → ℚ × List ℚ) :
    ∀ fuel s, s.iter ≤ 100 → (droopLoopGo oracle fuel s).iter ≤ 100 := by
  intro fuel
  induction fuel with
  | zero => intro s h; exact h
  | succ n ih =>
    intro s h
    simp only [droopLoopGo]
    by_cases hc : droopContinue s
    · simp only [hc, if_true]
      refine ih (droopStep oracle s) ?_
      have hlt : s.iter < 100 := by
        simp only [droopContinue, Bool.and_eq_true, decide_eq_true_eq] at hc
        exact hc.2
      simp only [droopStep]
      omega
    · simp only [hc, if_false]
      exact h

theorem droopLoopGo_stops (oracle : ℕ → ℚ × List ℚ) :
    ∀ fuel s, 100 - s.iter ≤ fuel → droopContinue (droopLoopGo oracle fuel s) = false := by
  intro fuel
  induction fuel with
  | zero =>
    intro s h
    have h100 : 100 ≤ s.iter := by omega
    simp only [droopLoopGo, droopContinue, Bool.and_eq_false_iff]
    right
    simp only [decide_eq_false_iff_not, not_lt]
    exact h100
  | succ n ih =>
    intro s h
    simp only [droopLoopGo]
    by_cases hc : droopContinue s = true
    · rw [if_pos hc]
      refine ih (droopStep oracle s) ?_
      simp only [droopStep]
      omega
    · rw [if_neg hc]
      exact eq_false_of_ne_true hc

/-- C3 counterexample: an oracle whose first pass yields error 0 but a
downstream voltage vector far from the previous one.  The loop stops after
one iteration although the claimed conjunctive stopping condition (error
below 1e-8 AND its own delta below 1e-8) is false and the 100-iteration
cap is not reached: the source combines the two thresholds with AND in the
continuation condition, hence with OR in the stopping condition. -/
theorem C3_counterexample :
    droopContinue (perform_dc_load_flow_droop_loop (fun _ => (0, [20])) 1) = false ∧
    (perform_dc_load_flow_droop_loop (fun _ => (0, [20])) 1).iter = 1 ∧
    ¬ (((perform_dc_load_flow_droop_loop (fun _ => (0, [20])) 1).err < 1 / 100000000 ∧
         sumAbsDiff (perform_dc_load_flow_droop_loop (fun _ => (0, [20])) 1).prev_diff_volt
             (perform_dc_load_flow_droop_loop (fun _ => (0, [20])) 1).diff_volt
           < 1 / 100000000) ∨
       (perform_dc_load_flow_droop_loop (fun _ => (0, [20])) 1).iter = 100) := by
  have hstate : perform_dc_load_flow_droop_loop (fun _ => (0, [20])) 1
      = ⟨0, [10], [20], 1⟩ := by
    have h1 : droopContinue ⟨1, [0], [10], 0⟩ = true := by
      norm_num [droopContinue, sumAbsDiff]
    have h2 : droopContinue ⟨0, [10], [20], 1⟩ = false := by
      norm_num [droopContinue, sumAbsDiff]
    simp only [perform_dc_load_flow_droop_loop, List.replicate]
    rw [droopLoopGo, if_pos h1]
    show droopLoopGo _ 99 ⟨0, [10], [20], 1⟩ = _
    rw [droopLoopGo, if_neg (by rw [h2]; exact Bool.false_ne_true)]
  rw [hstate]
  refine ⟨by norm_num [droopContinue, sumAbsDiff], rfl, ?_⟩
  intro h
  rcases h with ⟨_, habs⟩ | h100
  · norm_num [sumAbsDiff] at habs
  · exact absurd h100 (by norm_num)

/-- C3 amended: the droop loop stops exactly when the PDU voltage error is
at most 1e-8 OR the downstream voltage vector moved by at most 1e-8
between consecutive iterations OR 100 iterations are reached; the
iteration cap terminates the loop normally (the state is returned, never
an error) with the counter at most 100.  The unfolding equations state
that the loop runs one more body iteration exactly while the continuation
condition holds. -/
theorem C3_droop_loop_stopping (oracle : ℕ → ℚ × List ℚ) (nPDU : ℕ) :
    ((perform_dc_load_flow_droop_loop oracle nPDU).err ≤ 1 / 100000000 ∨
     sumAbsDiff (perform_dc_load_flow_droop_loop oracle nPDU).prev_diff_volt
         (perform_dc_load_flow_droop_loop oracle nPDU).diff_volt ≤ 1 / 100000000 ∨
     (perform_dc_load_flow_droop_loop oracle nPDU).iter = 100) ∧
    (perform_dc_load_flow_droop_loop oracle nPDU).iter ≤ 100 ∧
    (∀ fuel s, droopContinue s = false → droopLoopGo oracle (fuel + 1) s = s) ∧
    (∀ fuel s, droopContinue s = true →
        droopLoopGo oracle (fuel + 1) s = droopLoopGo oracle fuel (droopStep oracle s)) := by
  have hstop : droopContinue (perform_dc_load_flow_droop_loop oracle nPDU) = false :=
    droopLoopGo_stops oracle 100 ⟨1, List.replicate nPDU 0, List.replicate nPDU 10, 0⟩ (by simp)
  have hle : (perform_dc_load_flow_droop_loop oracle nPDU).iter ≤ 100 :=
    droopLoopGo_iter_le oracle 100 ⟨1, List.replicate nPDU 0, List.replicate nPDU 10, 0⟩ (by simp)
  refine ⟨?_, hle, ?_, ?_⟩
  · set r := perform_dc_load_flow_droop_loop oracle nPDU with hr
    by_cases h1 : r.err ≤ 1 / 100000000
    · exact Or.inl h1
    by_cases h2 : sumAbsDiff r.prev_diff_volt r.diff_volt ≤ 1 / 100000000
    · exact Or.inr (Or.inl h2)
    refine Or.inr (Or.inr ?_)
    have h1' : r.err > 1 / 100000000 := not_le.mp h1
    have h2' : sumAbsDiff r.prev_diff_volt r.diff_volt > 1 / 100000000 := not_le.mp h2
    have hnlt : ¬ (r.iter < 100) := by
      intro hlt
      rw [droopContinue] at hstop
      simp [h1', h2', hlt] at hstop
      rw [← one_div] at hstop
      exact h2 (hstop h1')
    omega
  · intro fuel s h
    simp [droopLoopGo, h]
  · intro fuel s h
    simp [droopLoopGo, h]

/-- Witness for C3 at a concrete input: with a single PDU connection and an
oracle that always reports error zero, the loop exits with the counter at
most 100. -/
theorem C3_droop_loop_stopping_witness :
    (perform_dc_load_flow_droop_loop (fun _ => (0, [10])) 1).iter ≤ 100 :=
  (C3_droop_loop_stopping (fun _ => (0, [10])) 1).2.1

/- ===================================================================
C9: add_upstream_ext_grids (utilities_load_flow.py lines 108-129) and
add_upstream_ext_grids_for_sizing (lines 505-516).  An upstream link is
reduced to the fields the functions read: the connecting bus looked up in
the downstream list of the upstream subnetwork, whether the connecting
converter type contains PDU, and the solved voltage of the upstream bus
when the upstream subnetwork already has bus results (none otherwise).
An external grid row carries its bus, setpoint and whether its name is
the marker Converter emulation.
=================================================================== -/

/-- The data of one upstream link that the external-grid injection reads. -/
structure LinkInfo where
  connBus : ℕ
  isPDU : Bool
  upSolvedV : Option ℚ
deriving DecidableEq

/-- An external grid row: bus, voltage setpoint, and whether the row is a
temporary converter-emulation grid. -/
structure ExtGridRow where
  bus : ℕ
  vm_pu : ℚ
  isEmulation : Bool
deriving DecidableEq

/-- The voltage setpoint computed for one upstream link: 1.0 by default;
for a PDU converter whose upstream subnetwork has solved bus results, the
solved upstream voltage clamped into the band 0.98 to 1.02. -/
def link_setpoint (l : LinkInfo) : ℚ :=
  if l.upSolvedV.isSome && l.isPDU then
    min (102 / 100) (max (98 / 100) (l.upSolvedV.getD 1))
  else 1

/-- Embedding of add_upstream_ext_grids: for each upstream link, create
the emulation grid at the connecting bus if none exists yet, otherwise
only overwrite the voltage setpoint of the existing emulation grid. -/
def add_upstream_ext_grids (links : List LinkInfo) (grids : List ExtGridRow) : List ExtGridRow :=
  links.foldl
    (fun gs l =>
      if (gs.filter (fun g => g.isEmulation)).length = 0 then
        gs ++ [⟨l.connBus, link_setpoint l, true⟩]
      else
        gs.map (fun g => if g.isEmulation then ⟨g.bus, link_setpoint l, g.isEmulation⟩ else g))
    grids

/-- Embedding of add_upstream_ext_grids_for_sizing: unconditionally create
one emulation grid per upstream link at its connecting bus with setpoint
1.0. -/
def add_upstream_ext_grids_for_sizing (links : List LinkInfo)
    (grids : List ExtGridRow) : List ExtGridRow :=
  links.foldl (fun gs l => gs ++ [⟨l.connBus, 1, true⟩]) grids

/-- The setpoint written by the last processed upstream link. -/
def last_link_setpoint (links : List LinkInfo) : ℚ :=
  links.foldl (fun _ l => link_setpoint l) 1

/-- C9 counterexample: a subnetwork with two upstream links at connecting
buses 0 and 1 gets a single emulation grid, at bus 0; the claimed one
grid per upstream link at that link connecting bus is false for the
second link. -/
theorem C9_counterexample :
    (add_upstream_ext_grids [⟨0, false, none⟩, ⟨1, false, none⟩] []).length = 1 ∧
    (∀ g ∈ add_upstream_ext_grids [⟨0, false, none⟩, ⟨1, false, none⟩] [], g.bus = 0) ∧
    ¬ (∃ g ∈ add_upstream_ext_grids [⟨0, false, none⟩, ⟨1, false, none⟩] [], g.bus = 1) := by
  have hres : add_upstream_ext_grids [⟨0, false, none⟩, ⟨1, false, none⟩] []
      = [⟨0, 1, true⟩] := by
    simp [add_upstream_ext_grids, link_setpoint, List.foldl, List.filter]
  rw [hres]
  refine ⟨rfl, ?_, ?_⟩
  · intro g hg
    simp at hg
    simp [hg]
  · intro h
    obtain ⟨g, hg, hbus⟩ := h
    simp at hg
    rw [hg] at hbus
    simp at hbus

theorem add_upstream_ext_grids_inv (links : List LinkInfo) :
    ∀ (grids : List ExtGridRow) (b : ℕ) (v : ℚ),
      (∀ g ∈ grids, g.isEmulation = false) →
      add_upstream_ext_grids links (grids ++ [(⟨b, v, true⟩ : ExtGridRow)])
        = grids ++ [(⟨b, links.foldl (fun _ l => link_setpoint l) v, true⟩ : ExtGridRow)] := by
  induction links with
  | nil => intro grids b v hg; simp [add_upstream_ext_grids]
  | cons l ls ih =>
    intro grids b v hg
    have hcount : (((grids ++ [(⟨b, v, true⟩ : ExtGridRow)]).filter
        (fun g => g.isEmulation)).length = 0) → False := by
      rw [List.filter_append]
      simp
    have hid : grids.map
        (fun g => if g.isEmulation then (⟨g.bus, link_setpoint l, g.isEmulation⟩ : ExtGridRow) else g)
        = grids := by
      have h1 : ∀ g ∈ grids,
          (if g.isEmulation then (⟨g.bus, link_setpoint l, g.isEmulation⟩ : ExtGridRow) else g)
            = id g := by
        intro g hgm
        simp [hg g hgm]
      rw [List.map_congr_left h1, List.map_id]
    have hmap : (grids ++ [(⟨b, v, true⟩ : ExtGridRow)]).map
        (fun g => if g.isEmulation then (⟨g.bus, link_setpoint l, g.isEmulation⟩ : ExtGridRow) else g)
        = grids ++ [(⟨b, link_setpoint l, true⟩ : ExtGridRow)] := by
      rw [List.map_append, hid]
      congr 1
    simp only [add_upstream_ext_grids, List.foldl]
    rw [if_neg hcount, hmap]
    exact ih grids b (link_setpoint l) hg

theorem add_upstream_ext_grids_for_sizing_eq (links : List LinkInfo) :
    ∀ grids : List ExtGridRow,
      add_upstream_ext_grids_for_sizing links grids
        = grids ++ links.map (fun l => (⟨l.connBus, 1, true⟩ : ExtGridRow)) := by
  induction links with
  | nil => intro grids; simp [add_upstream_ext_grids_for_sizing]
  | cons l ls ih =>
    intro grids
    simp only [add_upstream_ext_grids_for_sizing, List.foldl, List.map]
    have h1 := ih (grids ++ [(⟨l.connBus, 1, true⟩ : ExtGridRow)])
    simp only [add_upstream_ext_grids_for_sizing] at h1
    rw [h1, List.append_assoc]
    rfl

/-- C9 amended: in the normal orchestration pass a single emulation
external grid is maintained per subnetwork: the first upstream link
creates it at its connecting bus, every further link only overwrites its
voltage setpoint, so after processing the links there is exactly one
emulation grid, located at the first link connecting bus, carrying the
setpoint of the last link (1.0 by default, the clamped upstream voltage
for a PDU link with solved upstream results).  Only in the cable-sizing
pass is one emulation grid appended per upstream link at that link
connecting bus, always with setpoint 1.0. -/
theorem C9_upstream_ext_grids (links : List LinkInfo) (grids : List ExtGridRow)
    (hg : ∀ g ∈ grids, g.isEmulation = false) :
    (links = [] → add_upstream_ext_grids links grids = grids) ∧
    (∀ l0 ls, links = l0 :: ls →
        add_upstream_ext_grids links grids
          = grids ++ [(⟨l0.connBus, last_link_setpoint links, true⟩ : ExtGridRow)]) ∧
    add_upstream_ext_grids_for_sizing links grids
      = grids ++ links.map (fun l => (⟨l.connBus, 1, true⟩ : ExtGridRow)) ∧
    (∀ l : LinkInfo, l.upSolvedV = none ∨ l.isPDU = false → link_setpoint l = 1) ∧
    (∀ (l : LinkInfo) (v : ℚ), l.upSolvedV = some v → l.isPDU = true →
        link_setpoint l = min (102 / 100) (max (98 / 100) v)) := by
  refine ⟨?_, ?_, add_upstream_ext_grids_for_sizing_eq links grids, ?_, ?_⟩
  · intro h
    simp [h, add_upstream_ext_grids]
  · intro l0 ls h
    subst h
    have hcount : ((grids.filter (fun g => g.isEmulation)).length = 0) := by
      rw [List.length_eq_zero, List.filter_eq_nil_iff]
      intro g hgm
      simp [hg g hgm]
    simp only [add_upstream_ext_grids, List.foldl]
    rw [if_pos hcount]
    have h2 := add_upstream_ext_grids_inv ls grids l0.connBus (link_setpoint l0) hg
    simp only [add_upstream_ext_grids] at h2
    rw [h2]
    rfl
  · intro l h
    rcases h with h | h
    · simp [link_setpoint, h]
    · simp [link_setpoint, h]
  · intro l v hv hp
    simp [link_setpoint, hv, hp]

/-- Witness for C9 at a concrete input: one PDU link with solved upstream
voltage 1.5 on bus 7 and no pre-existing grids yields exactly the single
emulation grid at bus 7. -/
theorem C9_upstream_ext_grids_witness :
    add_upstream_ext_grids [⟨7, true, some (3 / 2)⟩] []
      = [] ++ [(⟨7, last_link_setpoint [⟨7, true, some (3 / 2)⟩], true⟩ : ExtGridRow)] :=
  (C9_upstream_ext_grids [⟨7, true, some (3 / 2)⟩] [] (by intro g hgm; simp at hgm)).2.1
    ⟨7, true, some (3 / 2)⟩ [] rfl

/- ===================================================================
C10: get_droop_curve (utilities_load_flow.py lines 1095-1151),
interpolate_p_droop (lines 1154-1199) and the per-asset body of
droop_correction (lines 1003-1042).  An asset row carries the fields the
three functions read; the converter lookups (physically connected at the
asset bus, or associated through the node table) are passed as options:
none when no such converter exists, some c when converter c exists, with
c itself holding an optional droop curve.
=================================================================== -/

/-- The built-in default droop curve: power-scale factor 1 at every
voltage sample. -/
def default_droop_curve : List (ℚ × ℚ) :=
  [(15 / 10, 1), (11 / 10, 1), (1, 1), (1, 1), (99 / 100, 1), (95 / 100, 1)]

/-- Embedding of get_droop_curve: prefer the droop curve of a physically
connected converter, then of an associated converter, then the asset row
curve; whenever the winning source has no curve, fall back to the default
curve. -/
def get_droop_curve (connected_converter associated_converter : Option (Option (List (ℚ × ℚ))))
    (own_curve : Option (List (ℚ × ℚ))) : List (ℚ × ℚ) :=
  match connected_converter with
  | some c => c.getD default_droop_curve
  | none =>
    match associated_converter with
    | some c => c.getD default_droop_curve
    | none => own_curve.getD default_droop_curve

/-- Embedding of interpolate_p_droop: sort the droop curve by voltage,
scale the power column by the base setpoint (profile value at the current
timestep times nominal power) and interpolate at the governing voltage. -/
def interpolate_p_droop (droop_curve : List (ℚ × ℚ)) (power_profile : List ℚ) (t : ℕ)
    (p_nom_mw v_asset : ℚ) : ℚ :=
  let sorted := sortPairs droop_curve
  let p_setpoint := power_profile.getD t 0 * p_nom_mw
  interp (sorted.map (fun q => (q.1, q.2 * p_setpoint))) v_asset

/-- An asset row (load, sgen or storage) as read by droop_correction. -/
structure AssetRow where
  isStorage : Bool
  nameHasBattery : Bool
  nameHasEV : Bool
  p_nom_mw : ℚ
  power_profile : List ℚ
  droop_curve : Option (List (ℚ × ℚ))
  soc_percent : ℚ
  max_e_mwh : ℚ
deriving DecidableEq

/-- The per-asset body of droop_correction: batteries in the storage table
go through interpolate_bess_p_droop (with state-of-charge integration and
clamping), every other asset through interpolate_p_droop; the result is
written back as the asset power setpoint. -/
def droop_correction_setpoint (a : AssetRow)
    (connected_converter associated_converter : Option (Option (List (ℚ × ℚ))))
    (t : ℕ) (time_step_duration v_asset : ℚ) : ℚ :=
  let curve := get_droop_curve connected_converter associated_converter a.droop_curve
  if a.isStorage && a.nameHasBattery then
    (interpolate_bess_p_droop curve a.nameHasEV a.power_profile t a.p_nom_mw
        a.soc_percent a.max_e_mwh time_step_duration v_asset).1
  else
    interpolate_p_droop curve a.power_profile t a.p_nom_mw v_asset

theorem sortPairs_default_ne_nil : sortPairs default_droop_curve ≠ [] := by
  simp only [default_droop_curve]
  exact sortPairs_ne_nil _ _

theorem sortPairs_default_snd_one : ∀ q ∈ sortPairs default_droop_curve, q.2 = 1 := by
  intro q hq
  have hmem := mem_sortPairs q default_droop_curve hq
  fin_cases hmem <;> rfl

/-- C10 counterexample: a battery storage asset with no droop curve of its
own and no connected or associated converter, nominal power 1 MW, profile
value one half: droop_correction writes 0.45 MW (the SOC-clamped nominal
power), not nominal power times profile value (0.5 MW) as the claim
states for every load, sgen and storage asset -- battery storage ignores
the profile and is further altered by the SOC clamp. -/
theorem C10_counterexample :
    droop_correction_setpoint ⟨true, true, false, 1, [1 / 2], none, 50, 1⟩ none none 0 1 1
      ≠ (1 / 2) * 1 := by
  have hcurve : get_droop_curve none none none = default_droop_curve := rfl
  have hinterp : interp (sortPairs default_droop_curve) 1 = 1 :=
    interp_const 1 _ sortPairs_default_ne_nil sortPairs_default_snd_one 1
  have hval : droop_correction_setpoint ⟨true, true, false, 1, [1 / 2], none, 50, 1⟩ none none 0 1 1
      = 9 / 20 := by
    simp only [droop_correction_setpoint, hcurve, Bool.and_self, if_true,
      interpolate_bess_p_droop, hinterp]
    norm_num
  rw [hval]
  norm_num

/-- C10 amended: for every load, sgen, or storage asset that is not a
battery, if the asset has no droop curve of its own and its bus has
neither a physically connected converter nor an associated converter,
droop_correction applies the built-in default droop curve whose
power-scale factor is 1 at every voltage, so the new setpoint equals the
nominal power times the current profile value, independent of the bus
voltage.  A battery storage asset instead takes its nominal power (the
profile value is not applied) and the result is further subject to the
state-of-charge clamping of interpolate_bess_p_droop. -/
theorem C10_default_droop_identity (a : AssetRow) (t : ℕ) (time_step_duration v_asset : ℚ)
    (hown : a.droop_curve = none)
    (hnb : a.isStorage = false ∨ a.nameHasBattery = false)
    (_ht : t < a.power_profile.length) :
    droop_correction_setpoint a none none t time_step_duration v_asset
      = a.power_profile.getD t 0 * a.p_nom_mw := by
  have hcurve : get_droop_curve none none a.droop_curve = default_droop_curve := by
    rw [hown]
    rfl
  have hcond : (a.isStorage && a.nameHasBattery) = false := by
    rcases hnb with h | h <;> simp [h]
  simp only [droop_correction_setpoint, hcurve, hcond, Bool.false_eq_true, if_false,
    interpolate_p_droop]
  refine interp_const _ _ ?_ ?_ v_asset
  · intro hmapnil
    rw [List.map_eq_nil_iff] at hmapnil
    exact sortPairs_default_ne_nil hmapnil
  · intro q hq
    rw [List.mem_map] at hq
    obtain ⟨q0, hq0, hq0e⟩ := hq
    have := sortPairs_default_snd_one q0 hq0
    rw [← hq0e]
    simp [this]

/-- Witness for C10 at a concrete input: a non-battery load with profile
value one half and nominal power 2 MW gets setpoint 1 MW at any voltage
(here 0.97). -/
theorem C10_default_droop_identity_witness :
    droop_correction_setpoint ⟨false, false, false, 2, [1 / 2], none, 0, 1⟩ none none 0 1 (97 / 100)
      = (1 / 2) * 2 :=
  C10_default_droop_identity ⟨false, false, false, 2, [1 / 2], none, 0, 1⟩ 0 1 (97 / 100)
    rfl (Or.inl rfl) (by norm_num)

/- ===================================================================
C2 and C5: sorting_network and find_upndownstream_networks
(utilities_net_topology.py lines 33-129).  The subnetworks produced by
separate_subnetworks are abstracted to their indices 0..k-1 together with
the assignment comp from buses to subnetwork indices (a bus partition is
exactly what connected_components returns); gridComp says whether a
subnetwork contains an in-service external grid.  sorting_network turns
every converter row into one connection record on each side; the record
stores the remote subnetwork index, the remote bus and the converter
name.  find_upndownstream_networks classifies each connection by the
recursive visited-set search is_upstream, embedded as an explicit
depth-fuelled search dfs whose visited list is threaded exactly as the
mutated Python set.
=================================================================== -/

/-- A converter row of the main network: from bus, to bus, name. -/
structure ConverterRow where
  fromBus : ℕ
  toBus : ℕ
  convName : ℕ
deriving DecidableEq

/-- The topological data of a network after decomposition: number of
subnetworks, converter list, bus-to-subnetwork assignment, and which
subnetworks contain an in-service external grid. -/
structure NetTopo where
  k : ℕ
  convs : List ConverterRow
  comp : ℕ → ℕ
  gridComp : ℕ → Bool

/-- One direct connection record of a subnetwork, as built by
sorting_network: remote subnetwork index, remote bus, converter name. -/
structure Conn where
  remote : ℕ
  remoteBus : ℕ
  convName : ℕ
deriving DecidableEq

/-- Embedding of the connection-building loop of sorting_network: each
converter contributes the record (component of its to bus, to bus, name)
to the subnetwork holding its from bus, and the record (component of its
from bus, from bus, name) to the subnetwork holding its to bus. -/
def sorting_connections (g : NetTopo) (n : ℕ) : List Conn :=
  g.convs.foldr
    (fun c acc =>
      (if g.comp c.fromBus = n then [⟨g.comp c.toBus, c.toBus, c.convName⟩] else []) ++
      ((if g.comp c.toBus = n then [⟨g.comp c.fromBus, c.fromBus, c.convName⟩] else []) ++ acc))
    []

/-- The remote subnetwork indices of the direct connections of n. -/
def remotes (g : NetTopo) (n : ℕ) : List ℕ :=
  (sorting_connections g n).map Conn.remote

/-- The fuelled worklist form of the recursive search inside is_upstream:
explore the pending connections of the current node; a pending node
already visited is skipped, a pending node holding an in-service external
grid returns True, otherwise it is pushed onto the visited list and its
own connections are explored first (depth first), sharing the visited
list with the remaining pending nodes exactly as the mutated Python set
is shared.  Every step consumes one unit of fuel; the lemmas below show
that the fuel supplied by is_upstream can never run out, so the search
equals the unbounded Python recursion. -/
def dfs (g : NetTopo) : ℕ → List ℕ → List ℕ → Bool × List ℕ
  | 0, _, visited => (false, visited)
  | fuel + 1, pending, visited =>
    match pending with
    | [] => (false, visited)
    | y :: ys =>
      if y ∈ visited then dfs g fuel ys visited
      else if g.gridComp y then (true, visited)
      else
        match dfs g fuel (remotes g y) (y :: visited) with
        | (true, vis2) => (true, vis2)
        | (false, vis2) => dfs g fuel ys vis2

/-- The total weight of the subnetworks not yet visited: an upper bound
on the work the search can still perform. -/
def unvisitedWeight (g : NetTopo) (visited : List ℕ) : ℕ :=
  Finset.sum ((Finset.range g.k).filter (fun v => v ∉ visited))
    (fun v => 1 + (remotes g v).length)

/-- Embedding of is_upstream: a network with an in-service external grid
is upstream; otherwise mark it visited and search its connections.  The
fuel is sufficient for the search never to hit the zero-fuel branch. -/
def is_upstream (g : NetTopo) (x : ℕ) (visited : List ℕ) : Bool :=
  if g.gridComp x then true
  else (dfs g (2 * unvisitedWeight g [] + 1) (remotes g x) (x :: visited)).1

/-- The direct_upstream_network list of subnetwork n, as classified by
find_upndownstream_networks: the connections whose remote side reaches an
in-service external grid by the visited-set search seeded with n. -/
def direct_upstream_network (g : NetTopo) (n : ℕ) : List Conn :=
  (sorting_connections g n).filter (fun c => is_upstream g c.remote [n])

/-- The direct_downstream_network list of subnetwork n: the remaining
connections. -/
def direct_downstream_network (g : NetTopo) (n : ℕ) : List Conn :=
  (sorting_connections g n).filter (fun c => ! is_upstream g c.remote [n])

/-- A path through converter connections avoiding the listed subnetworks
and ending in a subnetwork with an in-service external grid. -/
def IsGridPath (g : NetTopo) (avoid : List ℕ) : List ℕ → Prop
  | [] => False
  | [x] => x ∉ avoid ∧ g.gridComp x = true
  | x :: y :: rest => x ∉ avoid ∧ y ∈ remotes g x ∧ IsGridPath g avoid (y :: rest)

/-- Reachability of an in-service external grid from x through converter
connections, avoiding the listed subnetworks. -/
def ReachAvoid (g : NetTopo) (avoid : List ℕ) (x : ℕ) : Prop :=
  ∃ p : List ℕ, IsGridPath g avoid (x :: p)

/-- The triangle network: three subnetworks 0, 1, 2 joined in a cycle by
three converters, the in-service external grid in subnetwork 2.  Buses
and subnetworks coincide. -/
def triNet : NetTopo :=
  ⟨3, [⟨0, 1, 10⟩, ⟨1, 2, 11⟩, ⟨2, 0, 12⟩], fun b => b, fun v => v = 2⟩

/-- A network of two subnetworks joined by one converter with no
in-service external grid anywhere: zero roots. -/
def zeroGridNet : NetTopo :=
  ⟨2, [⟨0, 1, 10⟩], fun b => b, fun _ => false⟩

theorem dfs_visited_mono (g : NetTopo) :
    ∀ (fuel : ℕ) (pending visited : List ℕ), visited ⊆ (dfs g fuel pending visited).2 := by
  intro fuel
  induction fuel with
  | zero => intro pending visited; simp [dfs]
  | succ n ih =>
    intro pending visited
    cases pending with
    | nil => simp [dfs]
    | cons y ys =>
      simp only [dfs]
      by_cases hy : y ∈ visited
      · rw [if_pos hy]
        exact ih ys visited
      · rw [if_neg hy]
        by_cases hgy : g.gridComp y = true
        · rw [if_pos hgy]
          exact List.Subset.refl visited
        · rw [if_neg hgy]
          have h1 := ih (remotes g y) (y :: visited)
          cases hd : dfs g n (remotes g y) (y :: visited) with
          | mk b vis2 =>
            cases b with
            | true =>
              simp only []
              rw [hd] at h1
              exact fun a ha => h1 (List.mem_cons_of_mem y ha)
            | false =>
              simp only []
              have h2 := ih ys vis2
              rw [hd] at h1
              exact fun a ha => h2 (h1 (List.mem_cons_of_mem y ha))

theorem dfs_false_of_grid_visited (g : NetTopo) :
    ∀ (fuel : ℕ) (pending visited : List ℕ),
      (∀ v, g.gridComp v = true → v ∈ visited) → (dfs g fuel pending visited).1 = false := by
  intro fuel
  induction fuel with
  | zero => intro pending visited _; simp [dfs]
  | succ n ih =>
    intro pending visited hgrid
    cases pending with
    | nil => simp [dfs]
    | cons y ys =>
      simp only [dfs]
      by_cases hy : y ∈ visited
      · rw [if_pos hy]
        exact ih ys visited hgrid
      · rw [if_neg hy]
        have hgy : ¬ (g.gridComp y = true) := fun h => hy (hgrid y h)
        rw [if_neg hgy]
        have h1 : (dfs g n (remotes g y) (y :: visited)).1 = false :=
          ih (remotes g y) (y :: visited)
            (fun v hv => List.mem_cons_of_mem y (hgrid v hv))
        cases hd : dfs g n (remotes g y) (y :: visited) with
        | mk b vis2 =>
          rw [hd] at h1
          cases b with
          | true => simp at h1
          | false =>
            simp only []
            refine ih ys vis2 (fun v hv => ?_)
            have hsub := dfs_visited_mono g n (remotes g y) (y :: visited)
            rw [hd] at hsub
            exact hsub (List.mem_cons_of_mem y (hgrid v hv))

theorem unvisitedWeight_mono (g : NetTopo) (visited visited2 : List ℕ)
    (h : visited ⊆ visited2) :
    unvisitedWeight g visited2 ≤ unvisitedWeight g visited := by
  refine Finset.sum_le_sum_of_subset ?_
  intro v hv
  rw [Finset.mem_filter] at hv ⊢
  exact ⟨hv.1, fun hm => hv.2 (h hm)⟩

theorem unvisitedWeight_cons (g : NetTopo) (y : ℕ) (visited : List ℕ)
    (hk : y < g.k) (hy : y ∉ visited) :
    unvisitedWeight g (y :: visited) + (1 + (remotes g y).length)
      = unvisitedWeight g visited := by
  have hmem : y ∈ (Finset.range g.k).filter (fun v => v ∉ visited) := by
    rw [Finset.mem_filter, Finset.mem_range]
    exact ⟨hk, hy⟩
  have hset : (Finset.range g.k).filter (fun v => v ∉ (y :: visited))
      = ((Finset.range g.k).filter (fun v => v ∉ visited)).erase y := by
    ext v
    rw [Finset.mem_erase, Finset.mem_filter, Finset.mem_filter, List.mem_cons]
    constructor
    · intro ⟨h1, h2⟩
      push_neg at h2
      exact ⟨h2.1, h1, h2.2⟩
    · intro ⟨h1, h2, h3⟩
      refine ⟨h2, ?_⟩
      push_neg
      exact ⟨h1, h3⟩
  rw [unvisitedWeight, hset]
  exact Finset.sum_erase_add _ _ hmem

/-- Postcondition of a failed search: with enough fuel, every pending node
ends up visited, and every newly visited node is grid free with all of its
connections visited: the final visited list is closed, so no grid node is
reachable from it. -/
theorem dfs_false_post (g : NetTopo) (hwf : ∀ v, ∀ r ∈ remotes g v, r < g.k) :
    ∀ (fuel : ℕ) (pending visited : List ℕ),
      (∀ y ∈ pending, y < g.k) →
      pending.length + unvisitedWeight g visited < fuel →
      (dfs g fuel pending visited).1 = false →
      (∀ y ∈ pending, y ∈ (dfs g fuel pending visited).2) ∧
      (∀ v ∈ (dfs g fuel pending visited).2, v ∉ visited →
          g.gridComp v = false ∧ ∀ r ∈ remotes g v, r ∈ (dfs g fuel pending visited).2) := by
  intro fuel
  induction fuel with
  | zero => intro pending visited hpk hfuel; omega
  | succ n ih =>
    intro pending visited hpk hfuel hfalse
    cases pending with
    | nil =>
      simp only [dfs]
      exact ⟨by simp, fun v hv hnv => absurd hv hnv⟩
    | cons y ys =>
      simp only [dfs] at hfalse ⊢
      by_cases hy : y ∈ visited
      · rw [if_pos hy] at hfalse ⊢
        have hih := ih ys visited (fun z hz => hpk z (by simp [hz]))
          (by simp at hfuel; omega) hfalse
        refine ⟨?_, hih.2⟩
        intro z hz
        rw [List.mem_cons] at hz
        rcases hz with hz | hz
        · rw [hz]
          exact dfs_visited_mono g n ys visited hy
        · exact hih.1 z hz
      · rw [if_neg hy] at hfalse ⊢
        by_cases hgy : g.gridComp y = true
        · rw [if_pos hgy] at hfalse
          simp at hfalse
        · rw [if_neg hgy] at hfalse ⊢
          have hyk : y < g.k := hpk y (by simp)
          have hwcons := unvisitedWeight_cons g y visited hyk hy
          have hlen : (y :: ys).length = ys.length + 1 := rfl
          cases hd : dfs g n (remotes g y) (y :: visited) with
          | mk b vis2 =>
            rw [hd] at hfalse
            cases b with
            | true => simp at hfalse
            | false =>
              simp only [] at hfalse ⊢
              have hsub1 : (y :: visited) ⊆ vis2 := by
                have := dfs_visited_mono g n (remotes g y) (y :: visited)
                rw [hd] at this
                exact this
              have hih1 := ih (remotes g y) (y :: visited) (fun r hr => hwf y r hr)
                (by rw [hlen] at hfuel; omega) (by rw [hd])
              rw [hd] at hih1
              have hw2 : unvisitedWeight g vis2 ≤ unvisitedWeight g (y :: visited) :=
                unvisitedWeight_mono g (y :: visited) vis2 hsub1
              have hih2 := ih ys vis2 (fun z hz => hpk z (by simp [hz]))
                (by rw [hlen] at hfuel; omega) hfalse
              have hsub2 : vis2 ⊆ (dfs g n ys vis2).2 := dfs_visited_mono g n ys vis2
              refine ⟨?_, ?_⟩
              · intro z hz
                rw [List.mem_cons] at hz
                rcases hz with hz | hz
                · rw [hz]
                  exact hsub2 (hsub1 (by simp))
                · exact hih2.1 z hz
              · intro v hv hnv
                by_cases hv2 : v ∈ vis2
                · by_cases hvy : v = y
                  · subst hvy
                    refine ⟨by simpa using hgy, ?_⟩
                    intro r hr
                    exact hsub2 (hih1.1 r hr)
                  · have hcl := hih1.2 v hv2 (by
                      rw [List.mem_cons]
                      push_neg
                      exact ⟨hvy, hnv⟩)
                    exact ⟨hcl.1, fun r hr => hsub2 (hcl.2 r hr)⟩
                · have hcl := hih2.2 v hv hv2
                  exact ⟨hcl.1, hcl.2⟩

theorem grid_path_tail (g : NetTopo) (V : List ℕ) (z y : ℕ) (rest : List ℕ)
    (h : IsGridPath g V (z :: y :: rest)) : IsGridPath g V (y :: rest) :=
  h.2.2

theorem grid_path_avoid (g : NetTopo) (V : List ℕ) :
    ∀ q : List ℕ, IsGridPath g [] q → (∀ z ∈ q, z ∉ V) → IsGridPath g V q := by
  intro q
  induction q with
  | nil => intro h _; exact h
  | cons z rest ih =>
    intro h hav
    cases rest with
    | nil =>
      simp only [IsGridPath] at h ⊢
      exact ⟨hav z (by simp), h.2⟩
    | cons y rest2 =>
      simp only [IsGridPath] at h ⊢
      exact ⟨hav z (by simp), h.2.1, ih h.2.2 (fun w hw => hav w (by simp [hw]))⟩

theorem no_grid_path_of_closed (g : NetTopo) (V vis : List ℕ) (x : ℕ)
    (hgx : g.gridComp x = false)
    (hrx : ∀ r ∈ remotes g x, r ∈ vis)
    (hcl : ∀ v ∈ vis, v ∉ x :: V → g.gridComp v = false ∧ ∀ r ∈ remotes g v, r ∈ vis) :
    ∀ (p : List ℕ) (z : ℕ), (z = x ∨ (z ∈ vis ∧ z ∉ x :: V)) → ¬ IsGridPath g V (z :: p) := by
  intro p
  induction p with
  | nil =>
    intro z hz hpath
    simp only [IsGridPath] at hpath
    rcases hz with hz | hz
    · rw [hz] at hpath
      rw [hpath.2] at hgx
      simp at hgx
    · have := (hcl z hz.1 hz.2).1
      rw [hpath.2] at this
      simp at this
  | cons y rest ih =>
    intro z hz hpath
    simp only [IsGridPath] at hpath
    have hyvis : y ∈ vis := by
      rcases hz with hz | hz
      · rw [hz] at hpath
        exact hrx y hpath.2.1
      · exact (hcl z hz.1 hz.2).2 y hpath.2.1
    have hyV : y ∉ V := by
      have hsub : IsGridPath g V (y :: rest) := hpath.2.2
      cases rest with
      | nil => exact hsub.1
      | cons w r2 => exact hsub.1
    by_cases hyx : y = x
    · exact ih y (Or.inl hyx) hpath.2.2
    · refine ih y (Or.inr ⟨hyvis, ?_⟩) hpath.2.2
      rw [List.mem_cons]
      push_neg
      exact ⟨hyx, hyV⟩

theorem grid_path_suffix_from_last (g : NetTopo) (V : List ℕ) :
    ∀ (p : List ℕ) (x : ℕ), IsGridPath g V p → x ∈ p →
      ∃ s, IsGridPath g V (x :: s) ∧ x ∉ s ∧ (∀ z ∈ x :: s, z ∈ p) := by
  intro p
  induction p with
  | nil => intro x _ hx; simp at hx
  | cons z rest ih =>
    intro x hpath hx
    by_cases hxrest : x ∈ rest
    · cases rest with
      | nil => simp at hxrest
      | cons y rest2 =>
        obtain ⟨s, hs1, hs2, hs3⟩ := ih x (grid_path_tail g V z y rest2 hpath) hxrest
        exact ⟨s, hs1, hs2, fun w hw => by simp [hs3 w hw]⟩
    · have hxz : x = z := by
        rcases List.mem_cons.mp hx with h | h
        · exact h
        · exact absurd h hxrest
      subst hxz
      exact ⟨rest, hpath, hxrest, fun w hw => hw⟩

theorem reach_cases (g : NetTopo) (A B : ℕ) (hAB : A ≠ B)
    (h : ReachAvoid g [] A) : ReachAvoid g [B] A ∨ ReachAvoid g [A] B := by
  obtain ⟨p, hp⟩ := h
  obtain ⟨s, hs1, hs2, _⟩ := grid_path_suffix_from_last g [] (A :: p) A hp (by simp)
  by_cases hB : B ∈ A :: s
  · right
    have hBs : B ∈ s := by
      rcases List.mem_cons.mp hB with h1 | h1
      · exact absurd h1.symm hAB
      · exact h1
    cases s with
    | nil => simp at hBs
    | cons y rest =>
      obtain ⟨s2, hs21, _, hs23⟩ :=
        grid_path_suffix_from_last g [] (y :: rest) B (grid_path_tail g [] A y rest hs1) hBs
      refine ⟨s2, grid_path_avoid g [A] (B :: s2) hs21 ?_⟩
      intro w hw
      have hwin : w ∈ y :: rest := hs23 w hw
      simp only [List.mem_singleton]
      intro hwA
      rw [hwA] at hwin
      exact hs2 hwin
  · left
    refine ⟨s, grid_path_avoid g [B] (A :: s) hs1 ?_⟩
    intro w hw
    simp only [List.mem_singleton]
    intro hwB
    rw [hwB] at hw
    exact hB hw

theorem reach_first_step (g : NetTopo) (n : ℕ) (hgn : g.gridComp n = false)
    (h : ReachAvoid g [] n) : ∃ y ∈ remotes g n, ReachAvoid g [n] y := by
  obtain ⟨p, hp⟩ := h
  obtain ⟨s, hs1, hs2, _⟩ := grid_path_suffix_from_last g [] (n :: p) n hp (by simp)
  cases s with
  | nil =>
    simp only [IsGridPath] at hs1
    rw [hs1.2] at hgn
    simp at hgn
  | cons y rest =>
    refine ⟨y, hs1.2.1, rest, grid_path_avoid g [n] (y :: rest) hs1.2.2 ?_⟩
    intro w hw
    simp only [List.mem_singleton]
    intro hwn
    rw [hwn] at hw
    exact hs2 hw

theorem le_unvisitedWeight_nil (g : NetTopo) (x : ℕ) (hx : x < g.k) :
    1 + (remotes g x).length ≤ unvisitedWeight g [] := by
  rw [unvisitedWeight]
  have hmem : x ∈ (Finset.range g.k).filter (fun v => v ∉ ([] : List ℕ)) := by
    rw [Finset.mem_filter, Finset.mem_range]
    exact ⟨hx, by simp⟩
  exact @Finset.single_le_sum ℕ ℕ _ (fun v => 1 + (remotes g v).length) _
    (fun v _ => Nat.zero_le _) x hmem

/-- The search is complete: whenever an in-service external grid is
reachable from x through converter connections avoiding the seed list,
is_upstream returns true. -/
theorem is_upstream_complete (g : NetTopo) (hwf : ∀ v, ∀ r ∈ remotes g v, r < g.k)
    (x : ℕ) (V : List ℕ) (hx : x < g.k) (h : ReachAvoid g V x) :
    is_upstream g x V = true := by
  by_cases hgx : g.gridComp x = true
  · simp [is_upstream, hgx]
  · by_contra hfalse
    rw [is_upstream, if_neg hgx] at hfalse
    have hfalse2 : (dfs g (2 * unvisitedWeight g [] + 1) (remotes g x) (x :: V)).1 = false := by
      cases hb : (dfs g (2 * unvisitedWeight g [] + 1) (remotes g x) (x :: V)).1
      · rfl
      · exact absurd hb hfalse
    have hfuel : (remotes g x).length + unvisitedWeight g (x :: V)
        < 2 * unvisitedWeight g [] + 1 := by
      have h1 := le_unvisitedWeight_nil g x hx
      have h2 : unvisitedWeight g (x :: V) ≤ unvisitedWeight g [] :=
        unvisitedWeight_mono g [] (x :: V) (by simp)
      omega
    have hpost := dfs_false_post g hwf (2 * unvisitedWeight g [] + 1) (remotes g x) (x :: V)
      (fun r hr => hwf x r hr) hfuel hfalse2
    obtain ⟨p, hp⟩ := h
    exact no_grid_path_of_closed g V
      ((dfs g (2 * unvisitedWeight g [] + 1) (remotes g x) (x :: V)).2) x
      (by simpa using hgx) hpost.1 hpost.2 p x (Or.inl rfl) hp

/-- The search from the connections of the unique grid-holding subnetwork
answers false: the root is in the visited seed. -/
theorem is_upstream_false_at_root (g : NetTopo) (R x : ℕ)
    (huniq : ∀ v, g.gridComp v = true → v = R) (hxR : x ≠ R) :
    is_upstream g x [R] = false := by
  have hgx : ¬ (g.gridComp x = true) := fun h => hxR (huniq x h)
  rw [is_upstream, if_neg hgx]
  exact dfs_false_of_grid_visited g _ (remotes g x) (x :: [R])
    (fun v hv => by simp [huniq v hv])

theorem mem_connection_foldr (g : NetTopo) (n : ℕ) (c : Conn) :
    ∀ L : List ConverterRow,
      (c ∈ L.foldr
          (fun cv acc =>
            (if g.comp cv.fromBus = n then [⟨g.comp cv.toBus, cv.toBus, cv.convName⟩] else []) ++
            ((if g.comp cv.toBus = n then [⟨g.comp cv.fromBus, cv.fromBus, cv.convName⟩] else [])
              ++ acc))
          []) ↔
      ∃ cv ∈ L,
        ((g.comp cv.fromBus = n ∧ c = ⟨g.comp cv.toBus, cv.toBus, cv.convName⟩) ∨
         (g.comp cv.toBus = n ∧ c = ⟨g.comp cv.fromBus, cv.fromBus, cv.convName⟩)) := by
  intro L
  induction L with
  | nil => simp
  | cons cv L2 ih =>
    simp only [List.foldr, List.mem_append, ih, List.mem_cons]
    constructor
    · intro h
      rcases h with h | h | h
      · refine ⟨cv, Or.inl rfl, Or.inl ?_⟩
        by_cases hp : g.comp cv.fromBus = n
        · rw [if_pos hp] at h
          simp at h
          exact ⟨hp, h⟩
        · rw [if_neg hp] at h
          simp at h
      · refine ⟨cv, Or.inl rfl, Or.inr ?_⟩
        by_cases hq : g.comp cv.toBus = n
        · rw [if_pos hq] at h
          simp at h
          exact ⟨hq, h⟩
        · rw [if_neg hq] at h
          simp at h
      · obtain ⟨cv2, hcv2, hc⟩ := h
        exact ⟨cv2, Or.inr hcv2, hc⟩
    · intro h
      obtain ⟨cv2, hcv2, hc⟩ := h
      rcases hcv2 with hcv2 | hcv2
      · subst hcv2
        rcases hc with ⟨hp, hc⟩ | ⟨hq, hc⟩
        · exact Or.inl (by rw [if_pos hp]; simp [hc])
        · exact Or.inr (Or.inl (by rw [if_pos hq]; simp [hc]))
      · exact Or.inr (Or.inr ⟨cv2, hcv2, hc⟩)

theorem mem_sorting_connections (g : NetTopo) (n : ℕ) (c : Conn) :
    c ∈ sorting_connections g n ↔
      ∃ cv ∈ g.convs,
        ((g.comp cv.fromBus = n ∧ c = ⟨g.comp cv.toBus, cv.toBus, cv.convName⟩) ∨
         (g.comp cv.toBus = n ∧ c = ⟨g.comp cv.fromBus, cv.fromBus, cv.convName⟩)) := by
  rw [sorting_connections]
  exact mem_connection_foldr g n c g.convs

theorem remotes_lt (g : NetTopo) (hcomp : ∀ b, g.comp b < g.k) :
    ∀ v, ∀ r ∈ remotes g v, r < g.k := by
  intro v r hr
  rw [remotes, List.mem_map] at hr
  obtain ⟨c, hc, hrc⟩ := hr
  rw [mem_sorting_connections] at hc
  obtain ⟨cv, _, hc⟩ := hc
  rcases hc with ⟨_, hc⟩ | ⟨_, hc⟩ <;> · rw [← hrc, hc]; exact hcomp _

theorem remote_ne_self (g : NetTopo) (hself : ∀ cv ∈ g.convs, g.comp cv.fromBus ≠ g.comp cv.toBus)
    (n : ℕ) (c : Conn) (hc : c ∈ sorting_connections g n) : c.remote ≠ n := by
  rw [mem_sorting_connections] at hc
  obtain ⟨cv, hcv, hc⟩ := hc
  rcases hc with ⟨hp, hc⟩ | ⟨hq, hc⟩
  · rw [hc]
    intro h
    exact hself cv hcv (by rw [hp, ← h])
  · rw [hc]
    intro h
    exact hself cv hcv (by rw [hq, ← h])

/-- C2 counterexample: the triangle of three subnetworks joined in a
converter cycle with the single in-service external grid in subnetwork 2
satisfies the hypotheses of the claim (the converters connect all
components, exactly one active external grid), yet the connection of
converter 10 between subnetworks 0 and 1 is classified upstream on BOTH
sides, so it is not classified downstream on the other side as the claim
requires. -/
theorem C2_counterexample :
    (∀ n, n < triNet.k → ReachAvoid triNet [] n) ∧
    triNet.gridComp 2 = true ∧
    (∀ v, triNet.gridComp v = true → v = 2) ∧
    (⟨1, 1, 10⟩ : Conn) ∈ direct_upstream_network triNet 0 ∧
    (⟨0, 0, 10⟩ : Conn) ∈ direct_upstream_network triNet 1 ∧
    (⟨0, 0, 10⟩ : Conn) ∉ direct_downstream_network triNet 1 := by
  refine ⟨?_, by decide, ?_, by decide, by decide, by decide⟩
  · intro n hn
    have hn3 : n < 3 := hn
    interval_cases n
    · exact ⟨[1, 2], by simp only [IsGridPath]; decide⟩
    · exact ⟨[2], by simp only [IsGridPath]; decide⟩
    · exact ⟨[], by simp only [IsGridPath]; decide⟩
  · intro v h
    have : triNet.gridComp v = decide (v = 2) := rfl
    rw [this] at h
    exact of_decide_eq_true h

/-- C2 amended: for a network whose subnetworks are all connected to the
unique subnetwork R holding the only in-service external grid through
chains of converters (each converter joining two distinct subnetworks),
sorting_network produces exactly one subnetwork with an empty
direct_upstream_network list, namely R; every connection appears
symmetrically on both sides; and no connection is classified downstream
on both sides: a connection classified downstream on one side is
classified upstream on the other.  (Upstream on both sides is possible
when the converter graph has cycles, as the counterexample shows, so the
claimed two-sided upstream-downstream equivalence holds only in the
downstream-to-upstream direction.) -/
theorem C2_hierarchy_classification (g : NetTopo) (R : ℕ)
    (hcomp : ∀ b, g.comp b < g.k)
    (hself : ∀ cv ∈ g.convs, g.comp cv.fromBus ≠ g.comp cv.toBus)
    (hR : g.gridComp R = true) (hRk : R < g.k)
    (huniq : ∀ v, g.gridComp v = true → v = R)
    (hconn : ∀ n, n < g.k → ReachAvoid g [] n) :
    (∀ n, n < g.k → (direct_upstream_network g n = [] ↔ n = R)) ∧
    (∀ n, ∀ c ∈ sorting_connections g n,
        ∃ c2 ∈ sorting_connections g c.remote, c2.remote = n ∧ c2.convName = c.convName) ∧
    (∀ n, n < g.k → ∀ c ∈ sorting_connections g n,
        is_upstream g c.remote [n] = false → is_upstream g n [c.remote] = true) := by
  have hwf : ∀ v, ∀ r ∈ remotes g v, r < g.k := remotes_lt g hcomp
  refine ⟨?_, ?_, ?_⟩
  · intro n hnk
    constructor
    · intro hempty
      by_contra hnR
      have hgn : g.gridComp n = false := by
        cases hg : g.gridComp n
        · rfl
        · exact absurd (huniq n hg) hnR
      obtain ⟨y, hy, hreach⟩ := reach_first_step g n hgn (hconn n hnk)
      have hyk : y < g.k := hwf n y hy
      have hup : is_upstream g y [n] = true := is_upstream_complete g hwf y [n] hyk hreach
      rw [remotes, List.mem_map] at hy
      obtain ⟨c, hc, hcy⟩ := hy
      have hcmem : c ∈ direct_upstream_network g n := by
        rw [direct_upstream_network, List.mem_filter]
        exact ⟨hc, by rw [hcy, hup]⟩
      rw [hempty] at hcmem
      simp at hcmem
    · intro hnR
      subst hnR
      rw [direct_upstream_network, List.filter_eq_nil_iff]
      intro c hc
      have hne : c.remote ≠ n := remote_ne_self g hself n c hc
      rw [is_upstream_false_at_root g n c.remote huniq hne]
      simp
  · intro n c hc
    rw [mem_sorting_connections] at hc
    obtain ⟨cv, hcv, hcase⟩ := hc
    rcases hcase with ⟨hp, hceq⟩ | ⟨hq, hceq⟩
    · refine ⟨⟨g.comp cv.fromBus, cv.fromBus, cv.convName⟩, ?_, by exact hp, by rw [hceq]⟩
      rw [mem_sorting_connections]
      exact ⟨cv, hcv, Or.inr ⟨by rw [hceq], rfl⟩⟩
    · refine ⟨⟨g.comp cv.toBus, cv.toBus, cv.convName⟩, ?_, by exact hq, by rw [hceq]⟩
      rw [mem_sorting_connections]
      exact ⟨cv, hcv, Or.inl ⟨by rw [hceq], rfl⟩⟩
  · intro n hnk c hc hdown
    have hne : c.remote ≠ n := remote_ne_self g hself n c hc
    have hrk : c.remote < g.k := by
      have : c.remote ∈ remotes g n := by
        rw [remotes, List.mem_map]
        exact ⟨c, hc, rfl⟩
      exact hwf n c.remote this
    rcases reach_cases g n c.remote (fun h => hne h.symm) (hconn n hnk) with h | h
    · exact is_upstream_complete g hwf n [c.remote] hnk h
    · rw [is_upstream_complete g hwf c.remote [n] hrk h] at hdown
      simp at hdown

/-- A two-subnetwork chain with the in-service external grid in
subnetwork 1: buses 0 and the rest map to subnetworks 0 and 1. -/
def chainNet : NetTopo :=
  ⟨2, [⟨0, 1, 10⟩], fun b => if b = 0 then 0 else 1, fun v => v = 1⟩

/-- Witness for C2 at a concrete input: on the two-subnetwork chain, the
subnetwork holding the grid has an empty direct_upstream_network list. -/
theorem C2_hierarchy_classification_witness :
    direct_upstream_network chainNet 1 = [] := by
  have hcomp : ∀ b, chainNet.comp b < chainNet.k := by
    intro b
    by_cases hb : b = 0 <;> simp [chainNet, hb]
  have hself : ∀ cv ∈ chainNet.convs, chainNet.comp cv.fromBus ≠ chainNet.comp cv.toBus := by
    intro cv hcv
    fin_cases hcv
    decide
  have huniq : ∀ v, chainNet.gridComp v = true → v = 1 := by
    intro v h
    have heq : chainNet.gridComp v = decide (v = 1) := rfl
    rw [heq] at h
    exact of_decide_eq_true h
  have hconn : ∀ n, n < chainNet.k → ReachAvoid chainNet [] n := by
    intro n hn
    have hn2 : n < 2 := hn
    interval_cases n
    · exact ⟨[1], by simp only [IsGridPath]; decide⟩
    · exact ⟨[], by simp only [IsGridPath]; decide⟩
  exact ((C2_hierarchy_classification chainNet 1 hcomp hself (by decide) (by decide)
    huniq hconn).1 1 (by decide)).mpr rfl

/-- A network of two subnetworks joined by one converter with in-service
external grids in both: more than one root. -/
def twoGridNet : NetTopo :=
  ⟨2, [⟨0, 1, 10⟩], fun b => if b = 0 then 0 else 1, fun _ => true⟩

/-- C5: hierarchy resolution performs no root validation.  With zero
in-service external grids, classification completes silently: every
connection is classified downstream on both sides, both subnetworks end
with an empty direct_upstream_network list (two root-like nodes), and no
error is raised.  With two independent grids, classification also
completes silently: both sides are classified upstream and no subnetwork
is a root.  In both ambiguous cases orchestration would start on the
corrupt classification instead of failing fast. -/
theorem C5_no_root_validation :
    direct_upstream_network zeroGridNet 0 = [] ∧
    direct_upstream_network zeroGridNet 1 = [] ∧
    direct_downstream_network zeroGridNet 0 = [⟨1, 1, 10⟩] ∧
    direct_downstream_network zeroGridNet 1 = [⟨0, 0, 10⟩] ∧
    direct_upstream_network twoGridNet 0 = [⟨1, 1, 10⟩] ∧
    direct_upstream_network twoGridNet 1 = [⟨0, 0, 10⟩] ∧
    direct_downstream_network twoGridNet 0 = [] ∧
    direct_downstream_network twoGridNet 1 = [] := by
  decide

/- ===================================================================
C1: adjust_cable_sizing, adjust_single_cable and
check_downstream_line_size (utilities_load_flow.py lines 626-734) with
find_lines_between_given_line_and_ext_grid and get_bus_distances
(utilities_net_topology.py lines 152-210).  The subnetwork is modelled as
a line tree rooted at the slack bus (the shortest-path routines of the
source assume the radial topology the spec property tests use): up gives
the next line on the path toward the external grid (none when the line
touches the slack bus) and distance the distance column the source sorts
by, with ancestors strictly closer to the slack.  The numeric loading and
voltage checks of the downsizing loop depend on the external solver, so
they are abstracted as a feasibility oracle on the current cable-rank
assignment; the loop structure, the restore step, the downstream bump
pass and the fixed-point iteration are embedded verbatim.  Line ranks are
Option-valued: none models the NaN rank of lines without a catalogue,
which the source skips when sizing and never bumps (a NaN comparison is
false in pandas).
=================================================================== -/

/-- The radial topology of one subnetwork at the line level. -/
structure SubnetTree where
  up : ℕ → Option ℕ
  distance : ℕ → ℕ

/-- Collect at most fuel ancestors of a line, following up. -/
def pathToGo (S : SubnetTree) : ℕ → ℕ → List ℕ
  | 0, _ => []
  | fuel + 1, l =>
    match S.up l with
    | none => []
    | some p => p :: pathToGo S fuel p

/-- Embedding of find_lines_between_given_line_and_ext_grid: the lines on
the path between line l and the external grid, nearest first; the
distance of l bounds the number of ancestors. -/
def find_lines_between_line_and_ext_grid (S : SubnetTree) (l : ℕ) : List ℕ :=
  pathToGo S (S.distance l) l

theorem pathToGo_eq_of_le (S : SubnetTree)
    (hup : ∀ l p, S.up l = some p → S.distance p < S.distance l) :
    ∀ (d : ℕ) (l : ℕ), S.distance l ≤ d →
      ∀ fuel fuel2, S.distance l ≤ fuel → S.distance l ≤ fuel2 →
        pathToGo S fuel l = pathToGo S fuel2 l := by
  intro d
  induction d with
  | zero =>
    intro l hld fuel fuel2 h1 h2
    cases hu : S.up l with
    | none =>
      cases fuel with
      | zero => cases fuel2 with
        | zero => rfl
        | succ m => simp [pathToGo, hu]
      | succ m => cases fuel2 with
        | zero => simp [pathToGo, hu]
        | succ m2 => simp [pathToGo, hu]
    | some p =>
      have := hup l p hu
      omega
  | succ n ih =>
    intro l hld fuel fuel2 h1 h2
    cases hu : S.up l with
    | none =>
      cases fuel with
      | zero => cases fuel2 with
        | zero => rfl
        | succ m => simp [pathToGo, hu]
      | succ m => cases fuel2 with
        | zero => simp [pathToGo, hu]
        | succ m2 => simp [pathToGo, hu]
    | some p =>
      have hplt := hup l p hu
      cases fuel with
      | zero => omega
      | succ m => cases fuel2 with
        | zero => omega
        | succ m2 =>
          simp only [pathToGo, hu]
          have hpd : S.distance p ≤ n := by omega
          rw [ih p hpd m m2 (by omega) (by omega)]

theorem pathTo_cons (S : SubnetTree)
    (hup : ∀ l p, S.up l = some p → S.distance p < S.distance l)
    (l p : ℕ) (hu : S.up l = some p) :
    find_lines_between_line_and_ext_grid S l
      = p :: find_lines_between_line_and_ext_grid S p := by
  have hplt := hup l p hu
  rw [find_lines_between_line_and_ext_grid, find_lines_between_line_and_ext_grid]
  have hd : S.distance l = (S.distance l - 1) + 1 := by omega
  rw [hd]
  simp only [pathToGo, hu]
  congr 1
  exact pathToGo_eq_of_le S hup (S.distance p) p (le_refl _) (S.distance l - 1) (S.distance p)
    (by omega) (le_refl _)

theorem pathTo_nil (S : SubnetTree) (l : ℕ) (hu : S.up l = none) :
    find_lines_between_line_and_ext_grid S l = [] := by
  rw [find_lines_between_line_and_ext_grid]
  cases hd : S.distance l with
  | zero => rfl
  | succ n => simp [pathToGo, hu]

theorem mem_pathTo_distance_lt (S : SubnetTree)
    (hup : ∀ l p, S.up l = some p → S.distance p < S.distance l) :
    ∀ (d : ℕ) (l : ℕ), S.distance l ≤ d →
      ∀ q ∈ find_lines_between_line_and_ext_grid S l, S.distance q < S.distance l := by
  intro d
  induction d with
  | zero =>
    intro l hld q hq
    cases hu : S.up l with
    | none => rw [pathTo_nil S l hu] at hq; simp at hq
    | some p => have := hup l p hu; omega
  | succ n ih =>
    intro l hld q hq
    cases hu : S.up l with
    | none => rw [pathTo_nil S l hu] at hq; simp at hq
    | some p =>
      have hplt := hup l p hu
      rw [pathTo_cons S hup l p hu, List.mem_cons] at hq
      rcases hq with hq | hq
      · rw [hq]; exact hplt
      · have := ih p (by omega) q hq
        omega

theorem not_mem_pathTo_self (S : SubnetTree)
    (hup : ∀ l p, S.up l = some p → S.distance p < S.distance l) (l : ℕ) :
    l ∉ find_lines_between_line_and_ext_grid S l := by
  intro h
  have := mem_pathTo_distance_lt S hup (S.distance l) l (le_refl _) l h
  omega

theorem pathTo_closure (S : SubnetTree)
    (hup : ∀ l p, S.up l = some p → S.distance p < S.distance l) :
    ∀ (d : ℕ) (l : ℕ), S.distance l ≤ d →
      ∀ p ∈ find_lines_between_line_and_ext_grid S l,
        ∀ q ∈ find_lines_between_line_and_ext_grid S p,
          q ∈ find_lines_between_line_and_ext_grid S l := by
  intro d
  induction d with
  | zero =>
    intro l hld p hp
    cases hu : S.up l with
    | none => rw [pathTo_nil S l hu] at hp; simp at hp
    | some p2 => have := hup l p2 hu; omega
  | succ n ih =>
    intro l hld p hp q hq
    cases hu : S.up l with
    | none => rw [pathTo_nil S l hu] at hp; simp at hp
    | some p2 =>
      have hplt := hup l p2 hu
      rw [pathTo_cons S hup l p2 hu, List.mem_cons] at hp ⊢
      rcases hp with hp | hp
      · subst hp
        exact Or.inr hq
      · exact Or.inr (ih p2 (by omega) p hp q hq)

theorem pathTo_nodup (S : SubnetTree)
    (hup : ∀ l p, S.up l = some p → S.distance p < S.distance l) (l : ℕ) :
    (find_lines_between_line_and_ext_grid S l).Nodup := by
  have hpair : ∀ (d : ℕ) (l2 : ℕ), S.distance l2 ≤ d →
      (find_lines_between_line_and_ext_grid S l2).Pairwise
        (fun a b => S.distance b < S.distance a) := by
    intro d
    induction d with
    | zero =>
      intro l2 hld
      cases hu : S.up l2 with
      | none => rw [pathTo_nil S l2 hu]; exact List.Pairwise.nil
      | some p => have := hup l2 p hu; omega
    | succ n ih =>
      intro l2 hld
      cases hu : S.up l2 with
      | none => rw [pathTo_nil S l2 hu]; exact List.Pairwise.nil
      | some p =>
        have hplt := hup l2 p hu
        rw [pathTo_cons S hup l2 p hu]
        refine List.Pairwise.cons ?_ (ih p (by omega))
        intro q hq
        exact mem_pathTo_distance_lt S hup (S.distance p) p (le_refl _) q hq
  refine List.Pairwise.imp ?_ (hpair (S.distance l) l (le_refl _))
  intro a b h hab
  rw [hab] at h
  omega

/-- Point update of the cable-rank assignment. -/
def updRank (st : ℕ → Option ℕ) (l : ℕ) (v : Option ℕ) : ℕ → Option ℕ :=
  fun x => if x = l then v else st x

theorem updRank_same (st : ℕ → Option ℕ) (l : ℕ) (v : Option ℕ) : updRank st l v l = v := by
  simp [updRank]

theorem updRank_other (st : ℕ → Option ℕ) (l : ℕ) (v : Option ℕ) (x : ℕ) (h : x ≠ l) :
    updRank st l v x = st x := by
  simp [updRank, h]

/-- The downsizing loop of adjust_single_cable for one line: while the
current configuration is feasible (loading below the security margin,
terminal voltage above the minimum, the trial solve converged) and a
smaller catalogue rank exists, remember the current rank in idx, step the
rank down by one and re-solve; on exit, restore the last feasible rank
when the final configuration is not feasible.  The feasibility of a trial
is the oracle feas applied to the whole rank assignment, abstracting the
external solver. -/
def downsizeGo (feas : (ℕ → Option ℕ) → Bool) (l : ℕ) :
    ℕ → ℕ → (ℕ → Option ℕ) → (ℕ → Option ℕ)
  | idx, 0, st => if feas st then st else updRank st l (some idx)
  | idx, idx_new + 1, st =>
    if feas st then downsizeGo feas l (idx_new + 1) idx_new (updRank st l (some idx_new))
    else updRank st l (some idx)

theorem downsizeGo_other (feas : (ℕ → Option ℕ) → Bool) (l : ℕ) :
    ∀ (idx_new idx : ℕ) (st : ℕ → Option ℕ) (x : ℕ), x ≠ l →
      downsizeGo feas l idx idx_new st x = st x := by
  intro idx_new
  induction idx_new with
  | zero =>
    intro idx st x hx
    simp only [downsizeGo]
    by_cases hf : feas st
    · rw [if_pos hf]
    · rw [if_neg hf, updRank_other st l _ x hx]
  | succ n ih =>
    intro idx st x hx
    simp only [downsizeGo]
    by_cases hf : feas st
    · rw [if_pos hf, ih (n + 1) (updRank st l (some n)) x hx, updRank_other st l _ x hx]
    · rw [if_neg hf, updRank_other st l _ x hx]

theorem downsizeGo_val (feas : (ℕ → Option ℕ) → Bool) (l : ℕ) :
    ∀ (idx_new idx : ℕ) (st : ℕ → Option ℕ) (c : ℕ),
      st l = some idx_new → idx ≤ c → idx_new ≤ c →
      ∃ r ≤ c, downsizeGo feas l idx idx_new st l = some r := by
  intro idx_new
  induction idx_new with
  | zero =>
    intro idx st c hst hidx hnew
    simp only [downsizeGo]
    by_cases hf : feas st
    · rw [if_pos hf]
      exact ⟨0, Nat.zero_le c, hst⟩
    · rw [if_neg hf, updRank_same]
      exact ⟨idx, hidx, rfl⟩
  | succ n ih =>
    intro idx st c hst hidx hnew
    simp only [downsizeGo]
    by_cases hf : feas st
    · rw [if_pos hf]
      exact ih (n + 1) (updRank st l (some n)) c (updRank_same st l _) hnew (by omega)
    · rw [if_neg hf, updRank_same]
      exact ⟨idx, hidx, rfl⟩

/-- Rank comparison as pandas evaluates a < between two possibly NaN
cells: false unless both are numbers. -/
def optLtRank : Option ℕ → Option ℕ → Bool
  | some a, some b => a < b
  | _, _ => false

/-- One sweep of check_downstream_line_size over the lines between l and
the external grid: every path line whose rank is smaller than the rank of
l is moved one catalogue step up and the optimal flag is cleared. -/
def bumpPassGo (l : ℕ) : List ℕ → (ℕ → Option ℕ) → Bool → (ℕ → Option ℕ) × Bool
  | [], st, opt => (st, opt)
  | dl :: rest, st, opt =>
    if optLtRank (st dl) (st l) then
      bumpPassGo l rest (updRank st dl ((st dl).map (fun r => r + 1))) false
    else
      bumpPassGo l rest st opt

/-- Embedding of check_downstream_line_size. -/
def check_downstream_line_size (S : SubnetTree) (l : ℕ)
    (st : ℕ → Option ℕ) : (ℕ → Option ℕ) × Bool :=
  bumpPassGo l (find_lines_between_line_and_ext_grid S l) st true

/-- Embedding of adjust_single_cable: downsize the line (when it carries a
catalogue rank), then run the downstream consistency sweep; the returned
flag says whether the sweep made no change. -/
def adjust_single_cable (feas : ℕ → (ℕ → Option ℕ) → Bool) (S : SubnetTree) (l : ℕ)
    (st : ℕ → Option ℕ) : (ℕ → Option ℕ) × Bool :=
  let st1 := match st l with
    | none => st
    | some r0 => downsizeGo (feas l) l r0 r0 st
  check_downstream_line_size S l st1

/-- The while-not-optimal loop around adjust_single_cable, with fuel. -/
def settleGo (feas : ℕ → (ℕ → Option ℕ) → Bool) (S : SubnetTree) (l : ℕ) :
    ℕ → (ℕ → Option ℕ) → (ℕ → Option ℕ)
  | 0, st => st
  | fuel + 1, st =>
    let r := adjust_single_cable feas S l st
    if r.2 then r.1 else settleGo feas S l fuel r.1

/-- Processing of one line in adjust_cable_sizing: lines without a
catalogue rank are skipped; the fuel given to the loop is shown
sufficient below. -/
def processLine (feas : ℕ → (ℕ → Option ℕ) → Bool) (S : SubnetTree)
    (st : ℕ → Option ℕ) (l : ℕ) : ℕ → Option ℕ :=
  match st l with
  | none => st
  | some r0 =>
    settleGo feas S l ((find_lines_between_line_and_ext_grid S l).length * r0 + 1) st

/-- Embedding of adjust_cable_sizing: process the lines in the given
order (the source sorts them by ascending distance from the slack). -/
def adjust_cable_sizing (feas : ℕ → (ℕ → Option ℕ) → Bool) (S : SubnetTree)
    (order : List ℕ) (st : ℕ → Option ℕ) : ℕ → Option ℕ :=
  order.foldl (processLine feas S) st

theorem bumpPassGo_not_mem (l : ℕ) :
    ∀ (path : List ℕ) (st : ℕ → Option ℕ) (opt : Bool) (x : ℕ), x ∉ path →
      (bumpPassGo l path st opt).1 x = st x := by
  intro path
  induction path with
  | nil => intro st opt x _; rfl
  | cons dl rest ih =>
    intro st opt x hx
    have hxdl : x ≠ dl := fun h => hx (by simp [h])
    have hxrest : x ∉ rest := fun h => hx (by simp [h])
    simp only [bumpPassGo]
    by_cases hc : optLtRank (st dl) (st l) = true
    · rw [if_pos hc, ih _ false x hxrest, updRank_other _ _ _ x hxdl]
    · rw [if_neg hc, ih _ opt x hxrest]

theorem bumpPassGo_mem (l : ℕ) :
    ∀ (path : List ℕ) (st : ℕ → Option ℕ) (opt : Bool), l ∉ path → path.Nodup →
      ∀ x ∈ path, (bumpPassGo l path st opt).1 x
        = if optLtRank (st x) (st l) then (st x).map (fun r => r + 1) else st x := by
  intro path
  induction path with
  | nil => intro st opt _ _ x hx; simp at hx
  | cons dl rest ih =>
    intro st opt hl hnd x hx
    have hldl : l ≠ dl := fun h => hl (by simp [h])
    have hlrest : l ∉ rest := fun h => hl (by simp [h])
    have hdlrest : dl ∉ rest := (List.nodup_cons.mp hnd).1
    have hndrest : rest.Nodup := (List.nodup_cons.mp hnd).2
    simp only [bumpPassGo]
    rcases List.mem_cons.mp hx with hxdl | hxrest
    · subst hxdl
      by_cases hc : optLtRank (st x) (st l) = true
      · rw [if_pos hc, if_pos hc, bumpPassGo_not_mem l rest _ false x hdlrest,
          updRank_same]
      · rw [if_neg hc, if_neg hc, bumpPassGo_not_mem l rest st opt x hdlrest]
    · have hxdl : x ≠ dl := fun h => hdlrest (h ▸ hxrest)
      by_cases hc : optLtRank (st dl) (st l) = true
      · rw [if_pos hc]
        have hst1x : updRank st dl ((st dl).map (fun r => r + 1)) x = st x :=
          updRank_other _ _ _ x hxdl
        have hst1l : updRank st dl ((st dl).map (fun r => r + 1)) l = st l :=
          updRank_other _ _ _ l hldl
        rw [ih _ false hlrest hndrest x hxrest, hst1x, hst1l]
      · rw [if_neg hc]
        exact ih st opt hlrest hndrest x hxrest

theorem bumpPassGo_snd_false (l : ℕ) :
    ∀ (path : List ℕ) (st : ℕ → Option ℕ), (bumpPassGo l path st false).2 = false := by
  intro path
  induction path with
  | nil => intro st; rfl
  | cons dl rest ih =>
    intro st
    simp only [bumpPassGo]
    by_cases hc : optLtRank (st dl) (st l) = true
    · rw [if_pos hc]; exact ih _
    · rw [if_neg hc]; exact ih _

theorem bumpPassGo_of_true (l : ℕ) :
    ∀ (path : List ℕ) (st : ℕ → Option ℕ), (bumpPassGo l path st true).2 = true →
      (bumpPassGo l path st true).1 = st ∧
      ∀ x ∈ path, optLtRank (st x) (st l) = false := by
  intro path
  induction path with
  | nil => intro st _; exact ⟨rfl, by simp⟩
  | cons dl rest ih =>
    intro st h
    simp only [bumpPassGo] at h ⊢
    by_cases hc : optLtRank (st dl) (st l) = true
    · rw [if_pos hc] at h
      rw [bumpPassGo_snd_false l rest _] at h
      simp at h
    · rw [if_neg hc] at h ⊢
      obtain ⟨h1, h2⟩ := ih st h
      refine ⟨h1, ?_⟩
      intro x hx
      rcases List.mem_cons.mp hx with hx | hx
      · rw [hx]
        exact eq_false_of_ne_true hc
      · exact h2 x hx

theorem bumpPassGo_all_false (l : ℕ) :
    ∀ (path : List ℕ) (st : ℕ → Option ℕ) (opt : Bool),
      (∀ x ∈ path, optLtRank (st x) (st l) = false) →
      bumpPassGo l path st opt = (st, opt) := by
  intro path
  induction path with
  | nil => intro st opt _; rfl
  | cons dl rest ih =>
    intro st opt h
    simp only [bumpPassGo]
    rw [if_neg (by rw [h dl (by simp)]; exact Bool.false_ne_true)]
    exact ih st opt (fun x hx => h x (by simp [hx]))

theorem bumpPassGo_exists_of_false (l : ℕ) (path : List ℕ) (st : ℕ → Option ℕ)
    (h : (bumpPassGo l path st true).2 = false) :
    ∃ x ∈ path, optLtRank (st x) (st l) = true := by
  by_contra hno
  push_neg at hno
  have hall : ∀ x ∈ path, optLtRank (st x) (st l) = false := by
    intro x hx
    exact eq_false_of_ne_true (by simpa using hno x hx)
  rw [bumpPassGo_all_false l path st true hall] at h
  simp at h

/-- Default-zero reading of a rank cell. -/
def rankD (st : ℕ → Option ℕ) (l : ℕ) : ℕ := (st l).getD 0

/-- How far the rank of x still is below the rank of l (zero when x has
no rank). -/
def termMeasure (st : ℕ → Option ℕ) (l x : ℕ) : ℕ :=
  match st x with
  | none => 0
  | some rx => rankD st l - min rx (rankD st l)

/-- Total remaining bump distance along the path of l: each sweep of
check_downstream_line_size that changes something strictly decreases it,
so the while-not-optimal loop reaches a fixed point. -/
def settleMeasure (st : ℕ → Option ℕ) (l : ℕ) (path : List ℕ) : ℕ :=
  (path.map (termMeasure st l)).sum

theorem map_sum_le_map_sum (path : List ℕ) (f g : ℕ → ℕ)
    (h : ∀ x ∈ path, f x ≤ g x) : (path.map f).sum ≤ (path.map g).sum := by
  induction path with
  | nil => simp
  | cons y rest ih =>
    simp only [List.map, List.sum_cons]
    have h1 := h y (by simp)
    have h2 := ih (fun x hx => h x (by simp [hx]))
    omega

theorem map_sum_lt_map_sum (path : List ℕ) (f g : ℕ → ℕ)
    (h : ∀ x ∈ path, f x ≤ g x) (x : ℕ) (hx : x ∈ path) (hlt : f x < g x) :
    (path.map f).sum < (path.map g).sum := by
  induction path with
  | nil => simp at hx
  | cons y rest ih =>
    simp only [List.map, List.sum_cons]
    rcases List.mem_cons.mp hx with hxy | hxrest
    · subst hxy
      have h2 := map_sum_le_map_sum rest f g (fun z hz => h z (by simp [hz]))
      omega
    · have h1 := h y (by simp)
      have h2 := ih (fun z hz => h z (by simp [hz])) hxrest
      omega

theorem termMeasure_some (st : ℕ → Option ℕ) (l x rx : ℕ) (h : st x = some rx) :
    termMeasure st l x = rankD st l - min rx (rankD st l) := by
  rw [termMeasure, h]

theorem termMeasure_congr (st st2 : ℕ → Option ℕ) (l x : ℕ)
    (h1 : st2 x = st x) (h2 : rankD st2 l = rankD st l) :
    termMeasure st2 l x = termMeasure st l x := by
  simp only [termMeasure, h1, h2]

theorem termMeasure_le_rankD (st : ℕ → Option ℕ) (l x : ℕ) :
    termMeasure st l x ≤ rankD st l := by
  rw [termMeasure]
  cases st x <;> simp

theorem optLtRank_true_iff (a b : Option ℕ) :
    optLtRank a b = true ↔ ∃ x y, a = some x ∧ b = some y ∧ x < y := by
  cases a with
  | none => simp [optLtRank]
  | some x =>
    cases b with
    | none => simp [optLtRank]
    | some y => simp [optLtRank]

theorem settleMeasure_le (st : ℕ → Option ℕ) (l : ℕ) (path : List ℕ) :
    settleMeasure st l path ≤ path.length * rankD st l := by
  rw [settleMeasure]
  induction path with
  | nil => simp
  | cons y rest ih =>
    simp only [List.map, List.sum_cons, List.length_cons]
    rw [Nat.succ_mul]
    have hy := termMeasure_le_rankD st l y
    omega

theorem settleMeasure_downsize_le (feas : (ℕ → Option ℕ) → Bool) (l : ℕ)
    (st : ℕ → Option ℕ) (r0 : ℕ) (hst : st l = some r0) (path : List ℕ) (hl : l ∉ path) :
    settleMeasure (downsizeGo feas l r0 r0 st) l path ≤ settleMeasure st l path := by
  obtain ⟨r1, hr1, hval⟩ := downsizeGo_val feas l r0 r0 st r0 hst (le_refl _) (le_refl _)
  refine map_sum_le_map_sum path _ _ ?_
  intro x hx
  have hxl : x ≠ l := fun h => hl (h ▸ hx)
  have hx1 : downsizeGo feas l r0 r0 st x = st x := downsizeGo_other feas l r0 r0 st x hxl
  have hR : rankD (downsizeGo feas l r0 r0 st) l = r1 := by rw [rankD, hval]; rfl
  have hR0 : rankD st l = r0 := by rw [rankD, hst]; rfl
  cases hsx : st x with
  | none =>
    simp only [termMeasure, hx1, hsx]
    exact le_refl 0
  | some rx =>
    rw [termMeasure_some _ l x rx (by rw [hx1, hsx]), termMeasure_some st l x rx hsx, hR, hR0]
    omega

theorem settleMeasure_bump_lt (S : SubnetTree) (l : ℕ) (st : ℕ → Option ℕ)
    (hl : l ∉ find_lines_between_line_and_ext_grid S l)
    (hnd : (find_lines_between_line_and_ext_grid S l).Nodup)
    (hfalse : (check_downstream_line_size S l st).2 = false) :
    settleMeasure ((check_downstream_line_size S l st).1) l
        (find_lines_between_line_and_ext_grid S l)
      < settleMeasure st l (find_lines_between_line_and_ext_grid S l) := by
  set path := find_lines_between_line_and_ext_grid S l with hpath
  have hst2l : (check_downstream_line_size S l st).1 l = st l := by
    rw [check_downstream_line_size]
    exact bumpPassGo_not_mem l path st true l hl
  have hR : rankD ((check_downstream_line_size S l st).1) l = rankD st l := by
    rw [rankD, rankD, hst2l]
  obtain ⟨x0, hx0, hx0lt⟩ := bumpPassGo_exists_of_false l path st hfalse
  have hmem : ∀ x ∈ path, (check_downstream_line_size S l st).1 x
      = if optLtRank (st x) (st l) then (st x).map (fun r => r + 1) else st x := by
    intro x hx
    rw [check_downstream_line_size]
    exact bumpPassGo_mem l path st true hl hnd x hx
  have hbumped : ∀ x ∈ path, optLtRank (st x) (st l) = true →
      termMeasure ((check_downstream_line_size S l st).1) l x < termMeasure st l x := by
    intro x hx hc
    obtain ⟨rx, R, hsx, hsl, hltR⟩ := (optLtRank_true_iff _ _).mp hc
    have h1 : (check_downstream_line_size S l st).1 x = some (rx + 1) := by
      rw [hmem x hx, if_pos hc, hsx]
      rfl
    have hRv : rankD st l = R := by rw [rankD, hsl]; rfl
    rw [termMeasure_some _ l x (rx + 1) h1, termMeasure_some st l x rx hsx, hR, hRv]
    omega
  have hterm_le : ∀ x ∈ path,
      termMeasure ((check_downstream_line_size S l st).1) l x ≤ termMeasure st l x := by
    intro x hx
    by_cases hc : optLtRank (st x) (st l) = true
    · exact le_of_lt (hbumped x hx hc)
    · have h1 : (check_downstream_line_size S l st).1 x = st x := by
        rw [hmem x hx, if_neg hc]
      rw [termMeasure_congr st _ l x h1 hR]
  exact map_sum_lt_map_sum path _ _ hterm_le x0 hx0 (hbumped x0 hx0 hx0lt)

/-- The sizing invariant for one line: every line on its path toward the
external grid with a defined rank has rank at least its own. -/
def PairOK (S : SubnetTree) (st : ℕ → Option ℕ) (l : ℕ) : Prop :=
  ∀ p ∈ find_lines_between_line_and_ext_grid S l, ∀ rl rp,
    st l = some rl → st p = some rp → rl ≤ rp

theorem optLtRank_none_right (a : Option ℕ) : optLtRank a none = false := by
  cases a <;> rfl

theorem settleGo_post (feas : ℕ → (ℕ → Option ℕ) → Bool) (S : SubnetTree) (l : ℕ)
    (hl : l ∉ find_lines_between_line_and_ext_grid S l)
    (hnd : (find_lines_between_line_and_ext_grid S l).Nodup) :
    ∀ (fuel : ℕ) (st : ℕ → Option ℕ) (r0 : ℕ), st l = some r0 →
      settleMeasure st l (find_lines_between_line_and_ext_grid S l) < fuel →
      ∀ x ∈ find_lines_between_line_and_ext_grid S l,
        optLtRank ((settleGo feas S l fuel st) x) ((settleGo feas S l fuel st) l) = false := by
  intro fuel
  induction fuel with
  | zero => intro st r0 _ hmeas; omega
  | succ n ih =>
    intro st r0 hst hmeas
    have hstep : adjust_single_cable feas S l st
        = check_downstream_line_size S l (downsizeGo (feas l) l r0 r0 st) := by
      rw [adjust_single_cable, hst]
    obtain ⟨r1, hr1, hval⟩ := downsizeGo_val (feas l) l r0 r0 st r0 hst (le_refl _) (le_refl _)
    by_cases hopt : (adjust_single_cable feas S l st).2 = true
    · have hres : settleGo feas S l (n + 1) st = (adjust_single_cable feas S l st).1 := by
        simp only [settleGo, hopt, if_true]
      rw [hstep] at hopt
      rw [check_downstream_line_size] at hopt
      obtain ⟨heq, hcond⟩ := bumpPassGo_of_true l _ _ hopt
      intro x hx
      rw [hres, hstep, check_downstream_line_size, heq]
      exact hcond x hx
    · have hoptf : (adjust_single_cable feas S l st).2 = false := by
        cases hb : (adjust_single_cable feas S l st).2
        · rfl
        · exact absurd hb hopt
      have hres : settleGo feas S l (n + 1) st
          = settleGo feas S l n (adjust_single_cable feas S l st).1 := by
        simp only [settleGo, hoptf]
        rw [if_neg]
        exact Bool.false_ne_true
      have hsome2 : (adjust_single_cable feas S l st).1 l = some r1 := by
        rw [hstep, check_downstream_line_size,
          bumpPassGo_not_mem l _ _ true l hl, hval]
      have hm1 : settleMeasure (downsizeGo (feas l) l r0 r0 st) l
          (find_lines_between_line_and_ext_grid S l)
          ≤ settleMeasure st l (find_lines_between_line_and_ext_grid S l) :=
        settleMeasure_downsize_le (feas l) l st r0 hst _ hl
      have hm2 : settleMeasure ((adjust_single_cable feas S l st).1) l
          (find_lines_between_line_and_ext_grid S l)
          < settleMeasure (downsizeGo (feas l) l r0 r0 st) l
            (find_lines_between_line_and_ext_grid S l) := by
        rw [hstep]
        refine settleMeasure_bump_lt S l _ hl hnd ?_
        rw [← hstep]
        exact hoptf
      rw [hres]
      exact ih _ r1 hsome2 (by omega)

theorem processLine_post (feas : ℕ → (ℕ → Option ℕ) → Bool) (S : SubnetTree)
    (hup : ∀ l p, S.up l = some p → S.distance p < S.distance l)
    (st : ℕ → Option ℕ) (l : ℕ) :
    PairOK S (processLine feas S st l) l := by
  cases hst : st l with
  | none =>
    have hres : processLine feas S st l = st := by rw [processLine, hst]
    intro p hp rl rp hsl hsp
    rw [hres, hst] at hsl
    cases hsl
  | some r0 =>
    have hres : processLine feas S st l
        = settleGo feas S l ((find_lines_between_line_and_ext_grid S l).length * r0 + 1) st := by
      rw [processLine, hst]
    intro p hp rl rp hsl hsp
    rw [hres] at hsl hsp
    have hl := not_mem_pathTo_self S hup l
    have hnd := pathTo_nodup S hup l
    have hR0 : rankD st l = r0 := by rw [rankD, hst]; rfl
    have hmeas : settleMeasure st l (find_lines_between_line_and_ext_grid S l)
        < (find_lines_between_line_and_ext_grid S l).length * r0 + 1 := by
      have := settleMeasure_le st l (find_lines_between_line_and_ext_grid S l)
      rw [hR0] at this
      omega
    have hpost := settleGo_post feas S l hl hnd
      ((find_lines_between_line_and_ext_grid S l).length * r0 + 1) st r0 hst hmeas p hp
    rw [hsl, hsp] at hpost
    simp only [optLtRank] at hpost
    have hnlt : ¬ (rp < rl) := by simpa using hpost
    omega

theorem downsize_preserves_PairOK (feas : (ℕ → Option ℕ) → Bool) (S : SubnetTree)
    (l x : ℕ) (st : ℕ → Option ℕ) (r0 : ℕ) (hxl : x ≠ l)
    (hlp : l ∉ find_lines_between_line_and_ext_grid S x)
    (hP : PairOK S st x) : PairOK S (downsizeGo feas l r0 r0 st) x := by
  intro p hp rl rp h1 h2
  rw [downsizeGo_other feas l r0 r0 st x hxl] at h1
  have hpl : p ≠ l := fun h => hlp (h ▸ hp)
  rw [downsizeGo_other feas l r0 r0 st p hpl] at h2
  exact hP p hp rl rp h1 h2

theorem check_downstream_preserves_PairOK (S : SubnetTree)
    (hup : ∀ l p, S.up l = some p → S.distance p < S.distance l)
    (l x : ℕ) (st : ℕ → Option ℕ)
    (hP : PairOK S st x) : PairOK S ((check_downstream_line_size S l st).1) x := by
  have hl : l ∉ find_lines_between_line_and_ext_grid S l := not_mem_pathTo_self S hup l
  have hnd : (find_lines_between_line_and_ext_grid S l).Nodup := pathTo_nodup S hup l
  have hnotmem : ∀ z, z ∉ find_lines_between_line_and_ext_grid S l →
      (check_downstream_line_size S l st).1 z = st z := by
    intro z hz
    rw [check_downstream_line_size]
    exact bumpPassGo_not_mem l _ st true z hz
  have hmem : ∀ z ∈ find_lines_between_line_and_ext_grid S l,
      (check_downstream_line_size S l st).1 z
        = if optLtRank (st z) (st l) then (st z).map (fun r => r + 1) else st z := by
    intro z hz
    rw [check_downstream_line_size]
    exact bumpPassGo_mem l _ st true hl hnd z hz
  intro p hp rl rp h1 h2
  by_cases hx : x ∈ find_lines_between_line_and_ext_grid S l
  · have hpmem : p ∈ find_lines_between_line_and_ext_grid S l :=
      pathTo_closure S hup (S.distance l) l (le_refl _) x hx p hp
    rw [hmem x hx] at h1
    rw [hmem p hpmem] at h2
    cases hsl : st l with
    | none =>
      rw [hsl, optLtRank_none_right, if_neg Bool.false_ne_true] at h1 h2
      exact hP p hp rl rp h1 h2
    | some R =>
      cases hsx : st x with
      | none => rw [hsx, hsl] at h1; simp [optLtRank] at h1
      | some rlx =>
        cases hsp : st p with
        | none => rw [hsp, hsl] at h2; simp [optLtRank] at h2
        | some rpx =>
          have hbase : rlx ≤ rpx := hP p hp rlx rpx hsx hsp
          rw [hsx, hsl] at h1
          rw [hsp, hsl] at h2
          simp only [optLtRank, Option.map, decide_eq_true_eq] at h1 h2
          by_cases c1 : rlx < R
          · rw [if_pos c1] at h1
            by_cases c2 : rpx < R
            · rw [if_pos c2] at h2
              have hrl : rl = rlx + 1 := (Option.some.inj h1).symm
              have hrp : rp = rpx + 1 := (Option.some.inj h2).symm
              omega
            · rw [if_neg c2] at h2
              have hrl : rl = rlx + 1 := (Option.some.inj h1).symm
              have hrp : rp = rpx := (Option.some.inj h2).symm
              omega
          · rw [if_neg c1] at h1
            by_cases c2 : rpx < R
            · rw [if_pos c2] at h2
              have hrl : rl = rlx := (Option.some.inj h1).symm
              have hrp : rp = rpx + 1 := (Option.some.inj h2).symm
              omega
            · rw [if_neg c2] at h2
              have hrl : rl = rlx := (Option.some.inj h1).symm
              have hrp : rp = rpx := (Option.some.inj h2).symm
              omega
  · rw [hnotmem x hx] at h1
    by_cases hpm : p ∈ find_lines_between_line_and_ext_grid S l
    · rw [hmem p hpm] at h2
      by_cases hc : optLtRank (st p) (st l) = true
      · rw [if_pos hc] at h2
        cases hsp : st p with
        | none => rw [hsp] at h2; cases h2
        | some rpx =>
          rw [hsp] at h2
          have hrp : rp = rpx + 1 := (Option.some.inj h2).symm
          have := hP p hp rl rpx h1 hsp
          omega
      · rw [if_neg hc] at h2
        exact hP p hp rl rp h1 h2
    · rw [hnotmem p hpm] at h2
      exact hP p hp rl rp h1 h2

theorem settleGo_preserves_PairOK (feas : ℕ → (ℕ → Option ℕ) → Bool) (S : SubnetTree)
    (hup : ∀ l p, S.up l = some p → S.distance p < S.distance l)
    (l x : ℕ) (hxl : x ≠ l) (hlp : l ∉ find_lines_between_line_and_ext_grid S x) :
    ∀ (fuel : ℕ) (st : ℕ → Option ℕ),
      PairOK S st x → PairOK S (settleGo feas S l fuel st) x := by
  intro fuel
  induction fuel with
  | zero => intro st hP; exact hP
  | succ n ih =>
    intro st hP
    have hP1 : PairOK S (adjust_single_cable feas S l st).1 x := by
      rw [adjust_single_cable]
      cases hst : st l with
      | none => exact check_downstream_preserves_PairOK S hup l x st hP
      | some r0 =>
        exact check_downstream_preserves_PairOK S hup l x _
          (downsize_preserves_PairOK (feas l) S l x st r0 hxl hlp hP)
    simp only [settleGo]
    by_cases hopt : (adjust_single_cable feas S l st).2 = true
    · rw [if_pos hopt]
      exact hP1
    · rw [if_neg hopt]
      exact ih _ hP1

theorem processLine_preserves_PairOK (feas : ℕ → (ℕ → Option ℕ) → Bool) (S : SubnetTree)
    (hup : ∀ l p, S.up l = some p → S.distance p < S.distance l)
    (l x : ℕ) (hxl : x ≠ l) (hlp : l ∉ find_lines_between_line_and_ext_grid S x)
    (st : ℕ → Option ℕ) (hP : PairOK S st x) :
    PairOK S (processLine feas S st l) x := by
  rw [processLine]
  cases hst : st l with
  | none => exact hP
  | some r0 => exact settleGo_preserves_PairOK feas S hup l x hxl hlp _ st hP

theorem adjust_cable_sizing_inv (feas : ℕ → (ℕ → Option ℕ) → Bool) (S : SubnetTree)
    (hup : ∀ l p, S.up l = some p → S.distance p < S.distance l) :
    ∀ (order : List ℕ) (st : ℕ → Option ℕ) (D : List ℕ),
      (∀ x ∈ D, PairOK S st x) →
      (∀ x ∈ D, ∀ l ∈ order, l ∉ find_lines_between_line_and_ext_grid S x) →
      order.Pairwise (fun a b => b ∉ find_lines_between_line_and_ext_grid S a) →
      ∀ x, (x ∈ D ∨ x ∈ order) →
        PairOK S (List.foldl (processLine feas S) st order) x := by
  intro order
  induction order with
  | nil =>
    intro st D hD _ _ x hx
    rcases hx with hx | hx
    · exact hD x hx
    · simp at hx
  | cons l rest ih =>
    intro st D hD hcross hpair x hx
    have hD2 : ∀ z ∈ l :: D, PairOK S (processLine feas S st l) z := by
      intro z hz
      rcases List.mem_cons.mp hz with hz | hz
      · subst hz
        exact processLine_post feas S hup st z
      · by_cases hzl : z = l
        · subst hzl
          exact processLine_post feas S hup st z
        · exact processLine_preserves_PairOK feas S hup l z hzl
            (hcross z hz l (by simp)) st (hD z hz)
    have hcross2 : ∀ z ∈ l :: D, ∀ l2 ∈ rest, l2 ∉ find_lines_between_line_and_ext_grid S z := by
      intro z hz l2 hl2
      rcases List.mem_cons.mp hz with hz | hz
      · subst hz
        exact (List.pairwise_cons.mp hpair).1 l2 hl2
      · exact hcross z hz l2 (by simp [hl2])
    have hpair2 : rest.Pairwise (fun a b => b ∉ find_lines_between_line_and_ext_grid S a) :=
      (List.pairwise_cons.mp hpair).2
    have hx2 : x ∈ l :: D ∨ x ∈ rest := by
      rcases hx with hx | hx
      · exact Or.inl (by simp [hx])
      · rcases List.mem_cons.mp hx with hx | hx
        · exact Or.inl (by simp [hx])
        · exact Or.inr hx
    exact ih (processLine feas S st l) (l :: D) hD2 hcross2 hpair2 x hx2

/-- C1: after the cable-sizing pass of a subnetwork completes
(adjust_cable_sizing over the lines in ascending distance order, each line
downsized by adjust_single_cable and followed by the
check_downstream_line_size fixed-point sweep), every line with a defined
cable rank has rank at most the rank of every ranked line on the path
between it and the external grid, whatever the feasibility outcomes of
the trial solves. -/
theorem C1_cable_rank_monotone (S : SubnetTree)
    (hup : ∀ l p, S.up l = some p → S.distance p < S.distance l)
    (feas : ℕ → (ℕ → Option ℕ) → Bool) (order : List ℕ) (st : ℕ → Option ℕ)
    (hsort : order.Pairwise (fun a b => S.distance a ≤ S.distance b)) :
    ∀ l ∈ order, ∀ p ∈ find_lines_between_line_and_ext_grid S l, ∀ rl rp,
      adjust_cable_sizing feas S order st l = some rl →
      adjust_cable_sizing feas S order st p = some rp → rl ≤ rp := by
  have horder : order.Pairwise (fun a b => b ∉ find_lines_between_line_and_ext_grid S a) := by
    refine hsort.imp ?_
    intro a b hab hmem
    have := mem_pathTo_distance_lt S hup (S.distance a) a (le_refl _) b hmem
    omega
  intro l hl p hp rl rp h1 h2
  have hinv := adjust_cable_sizing_inv feas S hup order st [] (by simp) (by simp) horder l
    (Or.inr hl)
  rw [adjust_cable_sizing] at h1 h2
  exact hinv p hp rl rp h1 h2

/-- A concrete two-line radial subnetwork: line 0 touches the slack, line
1 hangs below it. -/
def wTree : SubnetTree := ⟨fun l => if l = 1 then some 0 else none, fun l => l⟩

/-- A concrete initial rank assignment: line 0 at rank 5, line 1 at rank
3, all other lines without a catalogue. -/
def wRanks : ℕ → Option ℕ :=
  fun l => if l = 0 then some 5 else if l = 1 then some 3 else none

/-- A feasibility oracle under which no downsizing trial ever succeeds. -/
def wFeas : ℕ → (ℕ → Option ℕ) → Bool := fun _ _ => false

theorem wTree_up : ∀ l p, wTree.up l = some p → wTree.distance p < wTree.distance l := by
  intro l p h
  simp only [wTree] at h ⊢
  by_cases hl : l = 1
  · rw [if_pos hl] at h
    have hp : p = 0 := (Option.some.inj h).symm
    omega
  · rw [if_neg hl] at h
    cases h

/-- Witness for C1 at a concrete input: on the two-line chain the sized
assignment keeps rank 3 on the downstream line and rank 5 on the line
toward the slack, and the monotonicity theorem yields 3 at most 5. -/
theorem C1_cable_rank_monotone_witness :
    adjust_cable_sizing wFeas wTree [0, 1] wRanks 1 = some 3 ∧
    adjust_cable_sizing wFeas wTree [0, 1] wRanks 0 = some 5 ∧ (3 : ℕ) ≤ 5 :=
  ⟨by decide, by decide,
    C1_cable_rank_monotone wTree wTree_up wFeas [0, 1] wRanks (by decide) 1 (by decide)
      0 (by decide) 3 5 (by decide) (by decide)⟩
